import Mathlib

/-! NixNoteOrg: the HTML-token to Org-mode translator.

A shallow embedding of `nixorg.go`.  The translator `Nodes.orgFormat` is a
single left-to-right loop over the tokens of one note; its local variables
(`value`, `header`, `table`, `insidePre`, `list`, `listValue`) become the
fields of `State`, one loop iteration becomes `step`, and a Go run-time panic
(slice bounds, index out of range) becomes `Except.error`.

Go's `int` counters are embedded as `Int`: every counter moves by one per
token, and a Go slice holds fewer than `2^63` nodes, so no counter can wrap.

The helpers of the driver are embedded as well: `sanitize`,
`Note.orgProperties` (with `strconv.ParseInt` as `parseInt`) and the loop of
`main` that fills the attachment map (`recordAttachments`).  Library functions
with a short exact description (`filepath.Base`, `strings.TrimSpace`,
`strings.Replace`, `strconv.ParseInt`) are written out; `strings.ToLower`,
the time formatting and the float formatting are fields of `GoLib`.
-/

namespace NixOrg

/-! ## Data model -/

/-- The token kinds of `golang.org/x/net/html` (`html.TokenType`). -/
inductive TokenType where
  | ErrorToken
  | TextToken
  | StartTagToken
  | EndTagToken
  | SelfClosingTagToken
  | CommentToken
  | DoctypeToken
  deriving DecidableEq, Repr

/-- An attribute of a tag (`html.Attribute`). -/
structure Attribute where
  Namespace : String
  Key : String
  Val : String
  deriving DecidableEq, Repr

/-- A token (`html.Token`); the field `Type` of the source is `Typ` here. -/
structure Token where
  Typ : TokenType
  Data : String
  Attr : List Attribute
  deriving DecidableEq, Repr

/-- The source's `Node`: a token and a text that is left empty. -/
structure Node where
  Token : NixOrg.Token
  Text : String
  deriving DecidableEq, Repr

/-- The source's `Nodes`, a slice of nodes. -/
abbrev Nodes := List Node

/-- The run-time panics the loop body can raise. -/
inductive Panic where
  | sliceBoundsOutOfRange
  | indexOutOfRange
  deriving DecidableEq, Repr

deriving instance DecidableEq for Except

/-- The package-level variables read by the translator: the attachment
directory and the map from content hash to file name (a Go
`map[string]string`, kept as an association list whose first match wins). -/
structure Env where
  attachmentPath : String
  attachments : List (String × String)

/-- The local variables of `orgFormat`, and the lines it prints to standard
output. -/
structure State where
  value : String
  header : Int
  table : Int
  insidePre : Bool
  list : Int
  listValue : List Int
  stdout : List String
  deriving DecidableEq, Repr

/-! ## Library functions used by the translator -/

/-- Reading a Go `map[string]string`: the stored value, or the zero value
`""` when the key is absent. -/
def mapGet (m : List (String × String)) (k : String) : String :=
  match m.lookup k with
  | some v => v
  | none => ""

/-- Go's `filepath.Base` on a Unix path: trailing slashes are dropped, the
last element is returned, `"."` for the empty path and `"/"` for a path of
slashes only. -/
def filepathBase (path : String) : String :=
  if path = "" then "."
  else
    let stripped := path.data.reverse.dropWhile (fun c => c = '/')
    let last := stripped.takeWhile (fun c => c ≠ '/')
    if last = [] then "/" else String.mk last.reverse

/-- Modelled from the spec: the text a `TextToken` contributes,
`html.UnescapeString(node.Token.String())`.  Both functions belong to
`golang.org/x/net/html`, which is not part of the repository; `String`
escapes the token's data and the library documents
`UnescapeString(EscapeString(s)) == s`, so the decoded text of the token is
appended verbatim. -/
def tokenText (t : Token) : String := t.Data

/-! ## The translator -/

/-- The loop of `getAttr` over the attribute list. -/
def getAttrLoop (key : String) : List Attribute → String
  | [] => ""
  | attr :: rest =>
    if attr.Key = key then attr.Val else getAttrLoop key rest

/-- The source's `getAttr`: the value of the first attribute with the given
key, `""` when there is none. -/
def getAttr (key : String) (token : Token) : String :=
  getAttrLoop key token.Attr

/-- The statement `value.WriteString(s)`. -/
def write (st : State) (s : String) : State :=
  { st with value := st.value ++ s }

/-- The loop `for i := 0; i <= list; i++ { value.WriteString("  ") }`, given
the number of iterations that remain. -/
def writeIndent : Nat → State → State
  | 0, st => st
  | n + 1, st => writeIndent n (write st "  ")

/-- The three writes of an `en-media` tag. -/
def writeMedia (env : Env) (st : State) (token : Token) : State :=
  write
    (write (write st "\n") ("[[./" ++ filepathBase env.attachmentPath ++ "/"))
    (mapGet env.attachments (getAttr "hash" token) ++ "]]")

/-- The case `html.SelfClosingTagToken` of the loop body. -/
def stepSelfClosing (env : Env) (st : State) (token : Token) : Except Panic State :=
  match token.Data with
  | "en-note" => .ok st
  | "en-media" => .ok (writeMedia env st token)
  | "en-todo" =>
    match getAttr "checked" token with
    | "true" => .ok (write st "\n- [X] ")
    | "false" => .ok (write st "\n- [ ] ")
    | _ => .ok st
  | "br" => .ok (write st "\n")
  | "hr" => .ok (write st "\n------------------------------------\n")
  | _ => .ok st

/-- The case `"li"` of a start tag: newline, indentation, and the marker of
the innermost open list. -/
def stepLi (st : State) : Except Panic State :=
  let st1 := writeIndent (st.list + 1).toNat (write st "\n")
  if st.list > 0 then
    match st.listValue.get? (st.list - 1).toNat with
    | none => .error .indexOutOfRange
    | some v =>
      if v = 0 then .ok (write st1 "- ")
      else
        .ok { write st1 (toString v ++ ".") with
              listValue := st.listValue.set (st.list - 1).toNat (v + 1) }
  else .ok st1

/-- The case `html.StartTagToken` of the loop body. -/
def stepStart (env : Env) (st : State) (token : Token) : Except Panic State :=
  match token.Data with
  | "a" =>
    if st.header = 0 then .ok (write st ("[[" ++ getAttr "href" token ++ "]["))
    else .ok st
  | "p" | "div" => .ok (write st "\n")
  | "u" => .ok (write st "_")
  | "i" => .ok (write st "/")
  | "b" | "strong" | "em" => .ok (write st "*")
  | "del" => .ok (write st "+")
  | "h1" => .ok { write st "\n** " with header := st.header + 1 }
  | "h2" => .ok { write st "\n*** " with header := st.header + 1 }
  | "h3" => .ok { write st "\n**** " with header := st.header + 1 }
  | "h4" => .ok { write st "\n***** " with header := st.header + 1 }
  | "h5" => .ok { write st "\n****** " with header := st.header + 1 }
  | "h6" => .ok { write st "\n******* " with header := st.header + 1 }
  | "en-note" | "span" | "tr" | "tbody" | "abbr" | "th" | "thead" | "ins" | "img" => .ok st
  | "sup" | "sub" | "small" | "br" | "dl" | "dd" | "dt" | "font" | "colgroup" | "cite" => .ok st
  | "address" | "s" | "map" | "area" | "center" | "q" => .ok st
  | "hr" => .ok (write st "\n------------------------------------\n")
  | "en-media" => .ok (writeMedia env st token)
  | "table" => .ok { st with table := st.table + 1 }
  | "td" => .ok (write st "|")
  | "ol" => .ok { st with list := st.list + 1, listValue := st.listValue ++ [1] }
  | "ul" => .ok { st with list := st.list + 1, listValue := st.listValue ++ [0] }
  | "li" => stepLi st
  | "code" | "tt" | "kbd" => if !st.insidePre then .ok (write st "~") else .ok st
  | "pre" => .ok { write st "\n#+BEGIN_SRC\n" with insidePre := true }
  | "blockquote" => .ok (write st "\n#+BEGIN_QUOTE\n")
  | _ => .ok { st with stdout := st.stdout ++ ["skip token: " ++ token.Data ++ "\n"] }

/-- The case `html.EndTagToken` of the loop body.  The slice expression
`listValue[:len(listValue)-1]` panics when `listValue` is empty. -/
def stepEnd (st : State) (token : Token) : Except Panic State :=
  match token.Data with
  | "u" => .ok (write st "_")
  | "i" => .ok (write st "/")
  | "b" | "strong" | "em" => .ok (write st "*")
  | "del" => .ok (write st "+")
  | "a" => if st.header = 0 then .ok (write st "]]") else .ok st
  | "h1" | "h2" | "h3" | "h4" | "h5" | "h6" => .ok { st with header := st.header - 1 }
  | "table" => .ok { st with table := st.table - 1 }
  | "tr" => .ok (write st "|\n")
  | "ol" | "ul" =>
    if st.listValue.length = 0 then .error .sliceBoundsOutOfRange
    else
      .ok { st with list := st.list - 1,
                    listValue := st.listValue.take (st.listValue.length - 1) }
  | "code" | "tt" | "kbd" => if !st.insidePre then .ok (write st "~") else .ok st
  | "pre" => .ok { write st "\n#+END_SRC\n" with insidePre := false }
  | "blockquote" => .ok (write st "\n#+END_QUOTE\n")
  | _ => .ok st

/-- One iteration of the loop of `orgFormat`: the switch on the token type. -/
def step (env : Env) (st : State) (node : Node) : Except Panic State :=
  match node.Token.Typ with
  | .SelfClosingTagToken => stepSelfClosing env st node.Token
  | .StartTagToken => stepStart env st node.Token
  | .EndTagToken => stepEnd st node.Token
  | .TextToken => .ok (write st (tokenText node.Token))
  | _ => .ok st

/-- The loop `for _, node := range nodes`, started in state `st`. -/
def run (env : Env) : State → List Node → Except Panic State
  | st, [] => .ok st
  | st, node :: rest =>
    match step env st node with
    | .error e => .error e
    | .ok st1 => run env st1 rest

/-- The values of the local variables before the loop. -/
def init : State :=
  { value := "", header := 0, table := 0, insidePre := false, list := 0,
    listValue := [], stdout := [] }

/-- The source's `Nodes.orgFormat`: run the loop and return `value.String()`. -/
def Nodes.orgFormat (env : Env) (nodes : Nodes) : Except Panic String :=
  match run env init nodes with
  | .error e => .error e
  | .ok st => .ok st.value

/-! ## Tokens used in the statements -/

/-- A start tag without attributes. -/
def startTag (name : String) : Node :=
  { Token := { Typ := .StartTagToken, Data := name, Attr := [] }, Text := "" }

/-- An end tag. -/
def endTag (name : String) : Node :=
  { Token := { Typ := .EndTagToken, Data := name, Attr := [] }, Text := "" }

/-- A text token. -/
def textTok (s : String) : Node :=
  { Token := { Typ := .TextToken, Data := s, Attr := [] }, Text := "" }

/-- A start tag with attributes. -/
def startTagA (name : String) (attrs : List Attribute) : Node :=
  { Token := { Typ := .StartTagToken, Data := name, Attr := attrs }, Text := "" }

/-- A self-closing tag with attributes. -/
def selfClosingTag (name : String) (attrs : List Attribute) : Node :=
  { Token := { Typ := .SelfClosingTagToken, Data := name, Attr := attrs }, Text := "" }

/-- An environment with no attachments. -/
def emptyEnv : Env := { attachmentPath := "", attachments := [] }

/-! ## Predicates on tokens -/

/-- A start tag `ol` or `ul`. -/
def isListOpen (n : Node) : Bool :=
  n.Token.Typ = .StartTagToken && (n.Token.Data = "ol" || n.Token.Data = "ul")

/-- An end tag `ol` or `ul`. -/
def isListClose (n : Node) : Bool :=
  n.Token.Typ = .EndTagToken && (n.Token.Data = "ol" || n.Token.Data = "ul")

/-- A start tag `li`. -/
def isLi (n : Node) : Bool :=
  n.Token.Typ = .StartTagToken && n.Token.Data = "li"

/-- Every prefix of the sequence holds at least as many start tags `ol`/`ul`
as end tags `ol`/`ul`. -/
def listBalanced (ts : List Node) : Prop :=
  ∀ k, k ≤ ts.length → (ts.take k).countP isListClose ≤ (ts.take k).countP isListOpen

instance (ts : List Node) : Decidable (listBalanced ts) := by
  unfold listBalanced
  infer_instance

/-- Starting with `d` open lists, no end tag `ol`/`ul` of the sequence is
met while no list is open. -/
def neverUnderflows : Nat → List Node → Prop
  | _, [] => True
  | d, n :: ns =>
    if isListOpen n then neverUnderflows (d + 1) ns
    else if isListClose n then 0 < d ∧ neverUnderflows (d - 1) ns
    else neverUnderflows d ns

/-- The number of open lists after the sequence, starting with `d`. -/
def depthAfter : Nat → List Node → Nat
  | d, [] => d
  | d, n :: ns =>
    if isListOpen n then depthAfter (d + 1) ns
    else if isListClose n then depthAfter (d - 1) ns
    else depthAfter d ns

/-- The two kinds of list. -/
inductive ListKind where
  | ordered
  | unordered
  deriving DecidableEq, Repr

/-- The kind of list a start tag `ol` or `ul` opens. -/
def kindOfTag (name : String) : ListKind :=
  if name = "ol" then .ordered else .unordered

/-- The kinds of the lists that are open after the sequence, outermost first,
read off the tokens alone: a start tag `ol`/`ul` opens a list, an end tag
`ol`/`ul` closes the innermost one.  `ks` are the lists open before. -/
def openLists : List ListKind → List Node → List ListKind
  | ks, [] => ks
  | ks, n :: ns =>
    if isListOpen n then openLists (ks ++ [kindOfTag n.Token.Data]) ns
    else if isListClose n then openLists ks.dropLast ns
    else openLists ks ns

/-- A run of `k` spaces. -/
def spaces (k : Nat) : String := String.mk (List.replicate k ' ')

/-- The kind a stack entry stands for in the `li` case: `0` is an unordered
list, every other value the next index of an ordered list. -/
def kindOfEntry (v : Int) : ListKind :=
  if v = 0 then .unordered else .ordered

/-- The number of start tags `li` of the sequence that are met at relative
depth `0`, where `d` is the relative depth at the start: these are the items
of the list that is innermost when `d = 0`, not those of lists nested in it. -/
def itemsAtTop : Nat → List Node → Nat
  | _, [] => 0
  | d, n :: ns =>
    if isListOpen n then itemsAtTop (d + 1) ns
    else if isListClose n then itemsAtTop (d - 1) ns
    else if isLi n && d == 0 then itemsAtTop d ns + 1
    else itemsAtTop d ns

/-- The texts that the start tags `li` of the sequence append to `value`, in
order: for each such token, what `value` holds after its step beyond what it
held before. -/
def itemLines (env : Env) : State → List Node → List String
  | _, [] => []
  | st, n :: ns =>
    match step env st n with
    | .error _ => []
    | .ok st1 =>
      if isLi n then
        String.mk (st1.value.data.drop st.value.data.length) :: itemLines env st1 ns
      else itemLines env st1 ns

/-- The state agrees with the open lists `ks`: `list = len(listValue)`, no
entry is negative, and each entry is `0` exactly for an unordered list. -/
def StackOk (st : State) (ks : List ListKind) : Prop :=
  st.list = st.listValue.length ∧ (∀ x ∈ st.listValue, 0 ≤ x) ∧
    st.listValue.map kindOfEntry = ks

/-- An item line: a newline, an even, positive number of spaces, and then
nothing, `- `, or an index from `1` on followed by `.`. -/
def IsItemLine (l : String) : Prop :=
  ∃ (d : Nat) (marker : String), l = "\n" ++ spaces (2 * (d + 1)) ++ marker ∧
    (marker = "" ∨ marker = "- " ∨ ∃ idx : Int, 1 ≤ idx ∧ marker = toString idx ++ ".")

/-- A run of `k` asterisks. -/
def stars (k : Nat) : String := String.mk (List.replicate k '*')

/-- An end tag with attributes (the tokenizer leaves the list empty). -/
def endTagA (name : String) (attrs : List Attribute) : Node :=
  { Token := { Typ := .EndTagToken, Data := name, Attr := attrs }, Text := "" }

/-- An attribute `href`. -/
def href (u : String) : Attribute := { Namespace := "", Key := "href", Val := u }

/-- An attribute `hash`. -/
def hashAttr (h : String) : Attribute := { Namespace := "", Key := "hash", Val := h }

/-- A start tag `pre`. -/
def isPreOpen (n : Node) : Bool :=
  n.Token.Typ = .StartTagToken && n.Token.Data = "pre"

/-- An end tag `pre`. -/
def isPreClose (n : Node) : Bool :=
  n.Token.Typ = .EndTagToken && n.Token.Data = "pre"

/-- A start or end tag `code`, `tt` or `kbd`. -/
def isCodeTag (n : Node) : Bool :=
  (n.Token.Typ = .StartTagToken || n.Token.Typ = .EndTagToken) &&
    (n.Token.Data = "code" || n.Token.Data = "tt" || n.Token.Data = "kbd")

/-- The inline-emphasis tags and the symbol each stands for. -/
def emphasisTable : List (String × String) :=
  [("u", "_"), ("i", "/"), ("b", "*"), ("strong", "*"), ("em", "*"), ("del", "+")]

/-- The start tags of the explicit ignore set (the three `break` cases). -/
def ignoredStartTags : List String :=
  ["en-note", "span", "tr", "tbody", "abbr", "th", "thead", "ins", "img",
   "sup", "sub", "small", "br", "dl", "dd", "dt", "font", "colgroup", "cite",
   "address", "s", "map", "area", "center", "q"]

/-- Every name that has a case in the switch on start tags. -/
def startCaseTags : List String :=
  ["a", "p", "div", "u", "i", "b", "strong", "em", "del",
   "h1", "h2", "h3", "h4", "h5", "h6"] ++ ignoredStartTags ++
  ["hr", "en-media", "table", "td", "ol", "ul", "li", "code", "tt", "kbd", "pre",
   "blockquote"]

/-- Every name that has a case in the switch on end tags. -/
def endCaseTags : List String :=
  ["u", "i", "b", "strong", "em", "del", "a", "h1", "h2", "h3", "h4", "h5", "h6",
   "table", "tr", "ol", "ul", "code", "tt", "kbd", "pre", "blockquote"]

/-- The tokens the translator ignores: a start tag of the ignore set, a start
tag with an unrecognized name, a start or end tag `table`, an end tag whose
name no case handles, and a self-closing tag other than `en-media`, `en-todo`,
`br` and `hr`. -/
def isIgnored (n : Node) : Bool :=
  match n.Token.Typ with
  | .StartTagToken =>
    decide (n.Token.Data ∈ ignoredStartTags) || decide (n.Token.Data ∉ startCaseTags) ||
      decide (n.Token.Data = "table")
  | .EndTagToken =>
    decide (n.Token.Data = "table") || decide (n.Token.Data ∉ endCaseTags)
  | .SelfClosingTagToken =>
    decide (n.Token.Data ∉ ["en-media", "en-todo", "br", "hr"])
  | _ => false

/-- The variables of the loop that the returned string depends on: all but
`table` and the lines printed to standard output. -/
def core (st : State) : String × Int × Bool × Int × List Int :=
  (st.value, st.header, st.insidePre, st.list, st.listValue)

/-- The outcome of a step or of a run, restricted to `core`. -/
def coreR : Except Panic State → Except Panic (String × Int × Bool × Int × List Int)
  | .error e => .error e
  | .ok st => .ok (core st)

/-! ## The rest of the program: titles, note properties, attachments -/

/-- A Go `float64`, kept as its IEEE 754 bit pattern (below `2^64`). -/
structure Float64 where
  bits : Nat
  deriving DecidableEq, Repr

/-- The comparison `x > 0` on a `float64`: the sign bit is clear and the value
is neither zero nor a NaN, that is, the bits lie in `(0, 0x7FF0000000000000]`. -/
def Float64.gtZero (x : Float64) : Bool :=
  decide (0 < x.bits) && decide (x.bits ≤ 0x7FF0000000000000)

/-- The source's `Resource.Data`. -/
structure ResourceData where
  Content : String
  Hash : String
  Encoding : String
  deriving DecidableEq, Repr

/-- The source's `Resource.ResourceAttributes`. -/
structure ResourceAttributes where
  FileName : String
  deriving DecidableEq, Repr

/-- The source's `Resource`. -/
structure Resource where
  Mime : String
  Data : ResourceData
  ResourceAttributes : NixOrg.ResourceAttributes
  deriving DecidableEq, Repr

/-- The source's `Note.Attributes`. -/
structure NoteAttributes where
  Author : String
  Latitude : Float64
  Longitude : Float64
  Source : String
  SourceUrl : String
  deriving DecidableEq, Repr

/-- The source's `Note`. -/
structure Note where
  Guid : String
  Title : String
  Content : String
  Created : String
  Tags : List String
  Attributes : NoteAttributes
  Resources : List Resource
  deriving DecidableEq, Repr

/-- The functions of the Go standard library whose result is taken as given:
`strings.ToLower`, `time.Unix(sec, 0).String()` (it depends on the local time
zone) and the verb `%f` of `fmt.Sprintf`. -/
structure GoLib where
  toLower : String → String
  unixString : Int → String
  sprintfF : Float64 → String

/-- The errors of `strconv` (`strconv.ErrSyntax`, `strconv.ErrRange`). -/
inductive NumError where
  | ErrSyntax
  | ErrRange
  deriving DecidableEq, Repr

/-- Go's `unicode.IsSpace`: the white space of Latin-1 and the characters with
the Unicode property White_Space. -/
def isSpace (c : Char) : Bool :=
  (9 ≤ c.toNat && c.toNat ≤ 13) || c.toNat = 32 || c.toNat = 0x85 || c.toNat = 0xA0 ||
  c.toNat = 0x1680 || (0x2000 ≤ c.toNat && c.toNat ≤ 0x200A) || c.toNat = 0x2028 ||
  c.toNat = 0x2029 || c.toNat = 0x202F || c.toNat = 0x205F || c.toNat = 0x3000

/-- Go's `strings.TrimSpace`: leading and trailing white space removed. -/
def trimSpace (s : String) : String :=
  String.mk ((s.data.dropWhile isSpace).reverse.dropWhile isSpace).reverse

/-- Go's `strings.Replace(s, old, new, -1)` for a one-character `old`: every
occurrence of the character is replaced. -/
def replaceChar (s : String) (old : Char) (new : String) : String :=
  String.mk (s.data.flatMap (fun c => if c = old then new.data else [c]))

/-- The character `'`. -/
def apostrophe : Char := Char.ofNat 39

/-- The character `"`. -/
def doubleQuote : Char := Char.ofNat 34

/-- The loop of `strconv.ParseUint(s, 10, 64)` over the characters, `n` being
the value read so far. -/
def parseUintLoop : List Char → Nat → Except NumError Nat
  | [], n => .ok n
  | c :: cs, n =>
    if 48 ≤ c.toNat ∧ c.toNat ≤ 57 then
      if n ≥ (2 ^ 64 - 1) / 10 + 1 then .error .ErrRange
      else if n * 10 + (c.toNat - 48) > 2 ^ 64 - 1 then .error .ErrRange
      else parseUintLoop cs (n * 10 + (c.toNat - 48))
    else .error .ErrSyntax

/-- Go's `strconv.ParseUint(s, 10, 64)`. -/
def parseUint (s : List Char) : Except NumError Nat :=
  if s = [] then .error .ErrSyntax else parseUintLoop s 0

/-- Go's `strconv.ParseInt(s, 10, 64)`: an optional sign and decimal digits,
with a value from `-2^63` to `2^63 - 1`.  A range error of `ParseUint` comes
with the largest `uint64`, which is beyond either cutoff, so it stays a range
error. -/
def parseInt (s : String) : Except NumError Int :=
  if s = "" then .error .ErrSyntax
  else
    let neg := decide (s.data.head? = some '-')
    let rest := if s.data.head? = some '+' ∨ s.data.head? = some '-' then s.data.tail else s.data
    match parseUint rest with
    | .error err => .error err
    | .ok un =>
      if !neg && decide (un ≥ 2 ^ 63) then .error .ErrRange
      else if neg && decide (un > 2 ^ 63) then .error .ErrRange
      else .ok (if neg then -(un : Int) else (un : Int))

/-- The source's `sanitize`. -/
def sanitize (lib : GoLib) (title : String) : String :=
  let title := trimSpace (lib.toLower title)
  let title := replaceChar title '-' ""
  let title := replaceChar title apostrophe ""
  let title := replaceChar title '(' ""
  let title := replaceChar title ')' ""
  let title := replaceChar title ',' ""
  let title := replaceChar title ':' ""
  let title := replaceChar title '|' ""
  let title := replaceChar title '?' ""
  let title := replaceChar title '.' ""
  let title := replaceChar title '/' ""
  let title := replaceChar title doubleQuote ""
  let title := replaceChar title ' ' "-"
  title

/-- The source's `Note.orgProperties`; `panic(err)` is `Except.error`. -/
def Note.orgProperties (lib : GoLib) (note : Note) : Except NumError String :=
  let attr := note.Attributes
  let result := "#+TITLE: " ++ note.Title ++ "\n"
  let result := result ++ ("#+STARTUP: showall" ++ "\n")
  let result :=
    if attr.Author ≠ "" then result ++ ("#+AUTHOR: " ++ attr.Author ++ "\n") else result
  let result :=
    if note.Tags.length > 0 then
      result ++ "#+TAGS: " ++ (String.intercalate " " note.Tags ++ "\n")
    else result
  let dated : Except NumError String :=
    if note.Created ≠ "" then
      match parseInt note.Created with
      | .error err => .error err
      | .ok c => .ok (result ++ ("#+DATE: " ++ lib.unixString (c.tdiv 1000) ++ "\n"))
    else .ok result
  match dated with
  | .error err => .error err
  | .ok result =>
    let result :=
      if attr.Latitude.gtZero then
        result ++ ("#+LAT: " ++ lib.sprintfF attr.Latitude ++ "\n")
          ++ ("#+LON: " ++ lib.sprintfF attr.Longitude ++ "\n")
      else result
    let result :=
      if attr.Source ≠ "" then result ++ ("#+SOURCE: " ++ attr.Source ++ "\n") else result
    let result :=
      if attr.SourceUrl ≠ "" then result ++ ("#+DESCRIPTION: " ++ attr.SourceUrl ++ "\n")
      else result
    let result :=
      if note.Guid ≠ "" then
        result ++ ("#+EVERNOTE_URL: https://evernote.com/Home.action#n=" ++ note.Guid
          ++ "&s=s1&ses=4&sh=2\n")
      else result
    .ok result

/-- The assignment `m[k] = v` on a Go map kept as an association list whose
first match wins. -/
def mapSet (m : List (String × String)) (k v : String) : List (String × String) :=
  (k, v) :: m

/-- The loop of `main` over `note.Resources`, as far as the map `attachments`
goes (the files it writes are left out): a resource without a file name gets
its hash as the name, and `attachments[hash]` is set to the name. -/
def recordAttachments (m : List (String × String)) : List Resource → List (String × String)
  | [] => m
  | attachment :: rest =>
    let fileName :=
      if attachment.ResourceAttributes.FileName = "" then attachment.Data.Hash
      else attachment.ResourceAttributes.FileName
    recordAttachments (mapSet m attachment.Data.Hash fileName) rest

/-- A stand-in for the library functions, to evaluate examples: ASCII lower
case (what `strings.ToLower` does on ASCII text), the seconds in decimal, and
the bit pattern in decimal. -/
def exampleLib : GoLib :=
  { toLower := fun s => String.mk (s.data.map Char.toLower),
    unixString := fun sec => toString sec,
    sprintfF := fun x => toString x.bits }

/-- The characters that `sanitize` deletes. -/
def deletedChars : List Char :=
  ['-', apostrophe, '(', ')', ',', ':', '|', '?', '.', '/', doubleQuote]

/-- The characters of the lowercased, trimmed title that are not deleted. -/
def keptChars (lib : GoLib) (title : String) : List Char :=
  (trimSpace (lib.toLower title)).data.filter (fun c => decide (c ∉ deletedChars))

/-- The title as the specification words it: lowercased, trimmed, the listed
characters deleted, and then every remaining space replaced by a hyphen. -/
def sanitizeSpec (lib : GoLib) (title : String) : String :=
  String.mk ((keptChars lib title).map (fun c => if c = ' ' then '-' else c))

/-- A decimal digit `0` to `9`. -/
def isDigit (c : Char) : Bool :=
  decide (48 ≤ c.toNat) && decide (c.toNat ≤ 57)

/-- The text with a leading sign `+` or `-` taken off. -/
def unsignedPart (s : String) : List Char :=
  if s.data.head? = some '+' ∨ s.data.head? = some '-' then s.data.tail else s.data

/-- A base-10 integer as text: an optional sign followed by one or more
decimal digits. -/
def isBase10Integer (s : String) : Bool :=
  decide (unsignedPart s ≠ []) && (unsignedPart s).all isDigit

/-- The number a string of decimal digits stands for. -/
def digitsValue (cs : List Char) : Nat :=
  cs.foldl (fun n c => n * 10 + (c.toNat - 48)) 0

/-- The integer a base-10 text stands for. -/
def base10Value (s : String) : Int :=
  if s.data.head? = some '-' then -(digitsValue (unsignedPart s) : Int)
  else (digitsValue (unsignedPart s) : Int)

/-- The value fits a signed 64-bit integer. -/
def inInt64 (v : Int) : Bool :=
  decide (-(2 : Int) ^ 63 ≤ v) && decide (v < (2 : Int) ^ 63)

/-- The lines of the property block that come before the date: title, startup
directive, author and tags. -/
def propertiesBeforeDate (note : Note) : String :=
  "#+TITLE: " ++ note.Title ++ "\n#+STARTUP: showall\n"
    ++ (if note.Attributes.Author ≠ "" then "#+AUTHOR: " ++ note.Attributes.Author ++ "\n"
        else "")
    ++ (if note.Tags ≠ [] then "#+TAGS: " ++ String.intercalate " " note.Tags ++ "\n" else "")

/-- The lines of the property block that come after the date: latitude and
longitude, source, source URL and the link built from the identifier. -/
def propertiesAfterDate (lib : GoLib) (note : Note) : String :=
  (if note.Attributes.Latitude.gtZero then
      "#+LAT: " ++ lib.sprintfF note.Attributes.Latitude ++ "\n"
        ++ "#+LON: " ++ lib.sprintfF note.Attributes.Longitude ++ "\n"
    else "")
    ++ (if note.Attributes.Source ≠ "" then "#+SOURCE: " ++ note.Attributes.Source ++ "\n"
        else "")
    ++ (if note.Attributes.SourceUrl ≠ "" then
          "#+DESCRIPTION: " ++ note.Attributes.SourceUrl ++ "\n"
        else "")
    ++ (if note.Guid ≠ "" then
          "#+EVERNOTE_URL: https://evernote.com/Home.action#n=" ++ note.Guid
            ++ "&s=s1&ses=4&sh=2\n"
        else "")

/-- A note with the given creation time and nothing else. -/
def noteCreated (created : String) : Note :=
  { Guid := "", Title := "", Content := "", Created := created, Tags := [],
    Attributes := { Author := "", Latitude := { bits := 0 }, Longitude := { bits := 0 },
                    Source := "", SourceUrl := "" },
    Resources := [] }

/-- An attribute `checked`. -/
def checkedAttr (v : String) : Attribute := { Namespace := "", Key := "checked", Val := v }

/-- An attribute with the given key and value. -/
def mkAttr (k v : String) : Attribute := { Namespace := "", Key := k, Val := v }

/-- A stack entry fits the kind of its list: `0` for an unordered list, at
least `1` for an ordered one. -/
def entryFits (v : Int) (k : ListKind) : Prop :=
  match k with
  | .unordered => v = 0
  | .ordered => 1 ≤ v

/-- The tokens of one table row with the given cell texts. -/
def rowTokens (cells : List String) : Nodes :=
  startTag "tr" :: cells.flatMap (fun c => [startTag "td", textTok c, endTag "td"])
    ++ [endTag "tr"]

/-- The cells of a row, each with a pipe before it. -/
def cellsText : List String → String
  | [] => ""
  | c :: cs => "|" ++ c ++ cellsText cs

/-- The names of the heading tags. -/
def headingTags : List String := ["h1", "h2", "h3", "h4", "h5", "h6"]

/-- A start tag `h1` to `h6`. -/
def isHeadingOpen (n : Node) : Bool :=
  n.Token.Typ = .StartTagToken && decide (n.Token.Data ∈ headingTags)

/-- An end tag `h1` to `h6`. -/
def isHeadingClose (n : Node) : Bool :=
  n.Token.Typ = .EndTagToken && decide (n.Token.Data ∈ headingTags)

/-- The variables of the loop other than the `pre` flag. -/
def besidesPre (st : State) : String × Int × Int × Int × List Int × List String :=
  (st.value, st.header, st.table, st.list, st.listValue, st.stdout)

/-- The outcome of a step, restricted to `besidesPre`. -/
def besidesPreR :
    Except Panic State → Except Panic (String × Int × Int × Int × List Int × List String)
  | .error e => .error e
  | .ok st => .ok (besidesPre st)

/-! ## Effect of one step on the list stack -/

theorem step_other_lists (env : Env) (st : State) (n : Node)
    (ho : isListOpen n = false) (hc : isListClose n = false) (hl : isLi n = false) :
    ∃ st1, step env st n = .ok st1 ∧ st1.list = st.list ∧ st1.listValue = st.listValue := by
  unfold step
  split
  · unfold stepSelfClosing
    split <;> first
      | (simp [write, writeMedia]; done)
      | (split <;> simp [write])
  · rename_i hty
    unfold stepStart
    split <;> first
      | (simp [write, writeMedia]; done)
      | (split <;> simp [write])
      | (simp_all [isListOpen, isLi])
  · rename_i hty
    unfold stepEnd
    split <;> first
      | (simp [write]; done)
      | (split <;> simp [write]; done)
      | (simp_all [isListClose])
  · simp [write]
  · simp

theorem step_listOpen (env : Env) (st : State) (n : Node) (h : isListOpen n = true) :
    ∃ v, (v = 0 ∨ v = 1) ∧ (v = 1 ↔ n.Token.Data = "ol") ∧
      step env st n =
        .ok { st with list := st.list + 1, listValue := st.listValue ++ [v] } := by
  obtain ⟨⟨ty, data, attrs⟩, txt⟩ := n
  simp only [isListOpen, Bool.and_eq_true, Bool.or_eq_true, decide_eq_true_eq] at h
  obtain ⟨rfl, rfl | rfl⟩ := h
  · exact ⟨1, by simp, by simp, by simp [step, stepStart]⟩
  · exact ⟨0, by simp, by simp, by simp [step, stepStart]⟩

theorem step_listClose (env : Env) (st : State) (n : Node) (h : isListClose n = true) :
    step env st n =
      if st.listValue.length = 0 then .error .sliceBoundsOutOfRange
      else .ok { st with list := st.list - 1,
                         listValue := st.listValue.take (st.listValue.length - 1) } := by
  obtain ⟨⟨ty, data, attrs⟩, txt⟩ := n
  simp only [isListClose, Bool.and_eq_true, Bool.or_eq_true, decide_eq_true_eq] at h
  obtain ⟨rfl, rfl | rfl⟩ := h <;> simp [step, stepEnd]

theorem step_li (env : Env) (st : State) (n : Node) (h : isLi n = true) :
    step env st n = stepLi st := by
  obtain ⟨⟨ty, data, attrs⟩, txt⟩ := n
  simp only [isLi, Bool.and_eq_true, decide_eq_true_eq] at h
  obtain ⟨rfl, rfl⟩ := h
  simp [step, stepStart]

theorem isListClose_of_open (n : Node) (h : isListOpen n = true) : isListClose n = false := by
  simp only [isListOpen, Bool.and_eq_true, decide_eq_true_eq] at h
  simp [isListClose, h.1]

theorem isLi_of_open (n : Node) (h : isListOpen n = true) : isLi n = false := by
  simp only [isListOpen, Bool.and_eq_true, Bool.or_eq_true, decide_eq_true_eq] at h
  obtain ⟨_, h | h⟩ := h <;> simp [isLi, h]

theorem isLi_of_close (n : Node) (h : isListClose n = true) : isLi n = false := by
  simp only [isListClose, Bool.and_eq_true, decide_eq_true_eq] at h
  simp [isLi, h.1]

theorem writeIndent_list (k : Nat) (st : State) :
    (writeIndent k st).list = st.list ∧ (writeIndent k st).listValue = st.listValue ∧
    (writeIndent k st).header = st.header ∧ (writeIndent k st).insidePre = st.insidePre ∧
    (writeIndent k st).table = st.table ∧ (writeIndent k st).stdout = st.stdout := by
  induction k generalizing st with
  | zero => simp [writeIndent]
  | succ k ih => simp [writeIndent, ih, write]

/-- With `list = len(listValue)` the index `listValue[list-1]` is in range:
the `li` case succeeds and keeps the depth. -/
theorem stepLi_ok (st : State) (hinv : st.list = st.listValue.length) :
    ∃ st1, stepLi st = .ok st1 ∧ st1.list = st.list ∧
      st1.listValue.length = st.listValue.length := by
  unfold stepLi
  by_cases hpos : st.list > 0
  · have hlt : (st.list - 1).toNat < st.listValue.length := by omega
    obtain ⟨v, hv⟩ : ∃ v, st.listValue.get? (st.list - 1).toNat = some v :=
      ⟨_, List.get?_eq_get hlt⟩
    simp only [hpos, if_true, hv]
    by_cases hz : v = 0
    · simp [hz, write, writeIndent_list]
    · simp [hz, write, writeIndent_list]
  · simp [hpos, write, writeIndent_list]

/-- The loop keeps `list = len(listValue)` and never panics as long as no end
tag `ol`/`ul` meets an empty stack. -/
theorem run_lists (env : Env) (ts : List Node) :
    ∀ st : State, st.list = st.listValue.length → neverUnderflows st.listValue.length ts →
      ∃ st1, run env st ts = .ok st1 ∧ st1.list = st1.listValue.length ∧
        st1.listValue.length = depthAfter st.listValue.length ts := by
  induction ts with
  | nil => intro st hinv _; exact ⟨st, rfl, hinv, rfl⟩
  | cons n ns ih =>
    intro st hinv hnu
    by_cases ho : isListOpen n = true
    · obtain ⟨v, _, _, hstep⟩ := step_listOpen env st n ho
      simp only [neverUnderflows, ho, if_true] at hnu
      obtain ⟨st1, h1, h2, h3⟩ :=
        ih { st with list := st.list + 1, listValue := st.listValue ++ [v] }
          (by simp [hinv]) (by simpa using hnu)
      refine ⟨st1, by simp [run, hstep, h1], h2, ?_⟩
      simpa [depthAfter, ho] using h3
    · by_cases hc : isListClose n = true
      · have hstep := step_listClose env st n hc
        simp only [Bool.not_eq_true] at ho
        simp only [neverUnderflows, ho, hc, if_true] at hnu
        simp only [Bool.false_eq_true, if_false] at hnu
        have hne : st.listValue.length ≠ 0 := by omega
        simp only [hne, if_false] at hstep
        obtain ⟨st1, h1, h2, h3⟩ :=
          ih { st with list := st.list - 1,
                       listValue := st.listValue.take (st.listValue.length - 1) }
            (by simp [hinv]; omega) (by simpa [List.length_take] using hnu.2)
        refine ⟨st1, by simp [run, hstep, h1], h2, ?_⟩
        simpa [depthAfter, ho, hc, List.length_take] using h3
      · simp only [Bool.not_eq_true] at ho hc
        simp only [neverUnderflows, ho, hc] at hnu
        by_cases hl : isLi n = true
        · obtain ⟨st0, hs, hl1, hl2⟩ := stepLi_ok st hinv
          obtain ⟨st1, h1, h2, h3⟩ := ih st0 (by rw [hl1, hl2, hinv]) (by simpa [hl2] using hnu)
          refine ⟨st1, by simp [run, step_li env st n hl, hs, h1], h2, ?_⟩
          simpa [depthAfter, ho, hc, hl2] using h3
        · simp only [Bool.not_eq_true] at hl
          obtain ⟨st0, hs, hl1, hl2⟩ := step_other_lists env st n ho hc hl
          obtain ⟨st1, h1, h2, h3⟩ := ih st0 (by rw [hl1, hl2, hinv]) (by simpa [hl2] using hnu)
          refine ⟨st1, by simp [run, hs, h1], h2, ?_⟩
          simpa [depthAfter, ho, hc, hl2] using h3

theorem neverUnderflows_of_counts (ts : List Node) :
    ∀ d : Nat, (∀ k, (ts.take k).countP isListClose ≤ d + (ts.take k).countP isListOpen) →
      neverUnderflows d ts := by
  induction ts with
  | nil => intro d _; trivial
  | cons n ns ih =>
    intro d h
    have hstep : ∀ k, ((n :: ns).take (k + 1)).countP isListClose
        ≤ d + ((n :: ns).take (k + 1)).countP isListOpen := fun k => h (k + 1)
    simp only [List.take_succ_cons, List.countP_cons] at hstep
    by_cases ho : isListOpen n = true
    · have hc := isListClose_of_open n ho
      simp only [neverUnderflows, ho, if_true]
      apply ih
      intro k
      have := hstep k
      simp only [ho, hc, if_true] at this
      simp at this
      omega
    · by_cases hc : isListClose n = true
      · simp only [Bool.not_eq_true] at ho
        simp only [neverUnderflows, ho, hc, if_true]
        have h0 := hstep 0
        simp [ho, hc] at h0
        refine ⟨by omega, ih _ ?_⟩
        intro k
        have := hstep k
        simp [ho, hc] at this
        omega
      · simp only [Bool.not_eq_true] at ho hc
        simp only [neverUnderflows, ho, hc]
        apply ih
        intro k
        have := hstep k
        simp [ho, hc] at this
        simpa using this

theorem depthAfter_counts (ts : List Node) :
    ∀ d : Nat, neverUnderflows d ts →
      depthAfter d ts + ts.countP isListClose = d + ts.countP isListOpen := by
  induction ts with
  | nil => intro d _; simp [depthAfter]
  | cons n ns ih =>
    intro d h
    by_cases ho : isListOpen n = true
    · have hc := isListClose_of_open n ho
      simp only [neverUnderflows, ho, if_true] at h
      have := ih _ h
      simp [depthAfter, ho, hc, List.countP_cons]
      omega
    · by_cases hc : isListClose n = true
      · simp only [Bool.not_eq_true] at ho
        simp only [neverUnderflows, ho, hc, if_true, Bool.false_eq_true, if_false] at h
        have := ih _ h.2
        simp [depthAfter, ho, hc, List.countP_cons]
        omega
      · simp only [Bool.not_eq_true] at ho hc
        simp only [neverUnderflows, ho, hc, Bool.false_eq_true, if_false] at h
        have := ih _ h
        simp [depthAfter, ho, hc, List.countP_cons]
        omega

theorem listBalanced_all (ts : List Node) (h : listBalanced ts) (k : Nat) :
    (ts.take k).countP isListClose ≤ (ts.take k).countP isListOpen := by
  by_cases hk : k ≤ ts.length
  · exact h k hk
  · have : ts.take k = ts.take ts.length := by
      rw [List.take_of_length_le (by omega), List.take_length]
    rw [this]
    exact h ts.length (le_refl _)

theorem neverUnderflows_of_balanced (ts : List Node) (h : listBalanced ts) :
    neverUnderflows 0 ts :=
  neverUnderflows_of_counts ts 0 (fun k => by simpa using listBalanced_all ts h k)

theorem listBalanced_take (ts : List Node) (h : listBalanced ts) (k : Nat) :
    listBalanced (ts.take k) := by
  intro j _
  rw [List.take_take]
  exact listBalanced_all ts h _

/-! ## The `li` case -/

theorem spaces_two_append (k : Nat) : "  " ++ spaces (2 * k) = spaces (2 * (k + 1)) := by
  apply String.ext
  simp [spaces, Nat.mul_succ, List.replicate_succ]

theorem writeIndent_eq (k : Nat) : ∀ st : State, writeIndent k st = write st (spaces (2 * k)) := by
  induction k with
  | zero =>
    intro st
    have : spaces 0 = "" := rfl
    simp [writeIndent, write, this]
  | succ k ih =>
    intro st
    rw [writeIndent, ih, ← spaces_two_append]
    simp [write, String.append_assoc]

/-- The `li` case while no list is open. -/
theorem stepLi_nil (st : State) (hl : st.list = 0) :
    stepLi st = .ok (write st ("\n" ++ spaces 2)) := by
  unfold stepLi
  simp [hl, writeIndent_eq, write, String.append_assoc]

/-- The `li` case while the innermost open list has the entry `v`. -/
theorem stepLi_snoc (st : State) (L : List Int) (v : Int) (h : st.listValue = L ++ [v])
    (hl : st.list = st.listValue.length) :
    stepLi st = .ok
      (if v = 0 then write st ("\n" ++ spaces (2 * (L.length + 2)) ++ "- ")
       else { write st ("\n" ++ spaces (2 * (L.length + 2)) ++ toString v ++ ".") with
              listValue := L ++ [v + 1] }) := by
  unfold stepLi
  have hlen : st.list = (L.length : Int) + 1 := by simp [hl, h]
  have hpos : st.list > 0 := by omega
  have hidx : (st.list - 1).toNat = L.length := by omega
  have hind : (st.list + 1).toNat = L.length + 2 := by omega
  simp only [hpos, if_true, hidx, hind, h, writeIndent_eq]
  have hget : (L ++ [v]).get? L.length = some v := by simp
  rw [hget]
  by_cases hv : v = 0
  · simp [hv, write, String.append_assoc]
  · simp [hv, write, String.append_assoc]

theorem stepLi_lists (st : State) (L : List Int) (v : Int) (h : st.listValue = L ++ [v])
    (hl : st.list = st.listValue.length) :
    ∃ st0, stepLi st = .ok st0 ∧ st0.list = st.list ∧
      st0.listValue = L ++ [if v = 0 then v else v + 1] := by
  rw [stepLi_snoc st L v h hl]
  by_cases hv : v = 0
  · exact ⟨_, rfl, by simp [hv, write], by simp [hv, write, h]⟩
  · exact ⟨_, rfl, by simp [hv, write], by simp [hv]⟩

/-! ## The list stack and the open lists of the token sequence -/

theorem stackOk_step (env : Env) (st st1 : State) (n : Node) (ks : List ListKind)
    (hinv : StackOk st ks) (hstep : step env st n = .ok st1) :
    StackOk st1 (openLists ks [n]) := by
  obtain ⟨h1, h2, h3⟩ := hinv
  by_cases ho : isListOpen n = true
  · obtain ⟨v, hv, hvk, hs⟩ := step_listOpen env st n ho
    rw [hs] at hstep
    cases hstep
    refine ⟨by simp [h1], ?_, ?_⟩
    · intro x hx
      simp only [List.mem_append, List.mem_singleton] at hx
      rcases hx with hx | rfl
      · exact h2 x hx
      · rcases hv with rfl | rfl <;> decide
    · simp only [openLists, ho, if_true, List.map_append, h3, List.map_cons, List.map_nil]
      congr 2
      unfold kindOfEntry kindOfTag
      by_cases hd : n.Token.Data = "ol"
      · simp [hd, hvk.2 hd]
      · have : v = 0 := by
          rcases hv with rfl | rfl
          · rfl
          · exact absurd (hvk.1 rfl) hd
        simp [hd, this]
  · simp only [Bool.not_eq_true] at ho
    by_cases hc : isListClose n = true
    · have hs := step_listClose env st n hc
      rw [hs] at hstep
      by_cases hne : st.listValue.length = 0
      · simp [hne] at hstep
      · simp only [hne, if_false] at hstep
        cases hstep
        refine ⟨by simp [h1]; omega, ?_, ?_⟩
        · intro x hx
          exact h2 x (List.mem_of_mem_take hx)
        · simp only [openLists, ho, hc, if_true, Bool.false_eq_true, if_false]
          rw [List.dropLast_eq_take, ← h3, List.map_take, List.length_map]
    · simp only [Bool.not_eq_true] at hc
      by_cases hl : isLi n = true
      · rw [step_li env st n hl] at hstep
        simp only [openLists, ho, hc, Bool.false_eq_true, if_false]
        rcases List.eq_nil_or_concat st.listValue with hnil | ⟨L, v, hL⟩
        · rw [stepLi_nil st (by simp [h1, hnil])] at hstep
          cases hstep
          exact ⟨h1, h2, h3⟩
        · rw [List.concat_eq_append] at hL
          rw [stepLi_snoc st L v hL h1] at hstep
          cases hstep
          by_cases hv : v = 0
          · simp only [hv, if_true]
            exact ⟨h1, h2, h3⟩
          · have hv0 : 0 ≤ v := h2 v (by simp [hL])
            simp only [hv, if_false]
            refine ⟨by simp [write, h1, hL], ?_, ?_⟩
            · intro x hx
              simp only [List.mem_append, List.mem_singleton] at hx
              rcases hx with hx | rfl
              · exact h2 x (by simp [hL, hx])
              · omega
            · rw [← h3, hL]
              have h1v : v + 1 ≠ 0 := by omega
              simp [kindOfEntry, hv, h1v]
      · simp only [Bool.not_eq_true] at hl
        obtain ⟨st0, hs, e1, e2⟩ := step_other_lists env st n ho hc hl
        rw [hs] at hstep
        cases hstep
        simp only [openLists, ho, hc, Bool.false_eq_true, if_false]
        exact ⟨by rw [e1, e2, h1], by rw [e2]; exact h2, by rw [e2]; exact h3⟩

theorem openLists_cons (ks : List ListKind) (n : Node) (ns : List Node) :
    openLists ks (n :: ns) = openLists (openLists ks [n]) ns := by
  simp only [openLists]
  split
  · rfl
  · split <;> rfl

theorem stackOk_run (env : Env) (ts : List Node) :
    ∀ (st st1 : State) (ks : List ListKind), StackOk st ks → run env st ts = .ok st1 →
      StackOk st1 (openLists ks ts) := by
  induction ts with
  | nil =>
    intro st st1 ks hinv hrun
    simp only [run] at hrun
    cases hrun
    exact hinv
  | cons n ns ih =>
    intro st st1 ks hinv hrun
    simp only [run] at hrun
    cases hs : step env st n with
    | error e => simp [hs] at hrun
    | ok st0 =>
      simp only [hs] at hrun
      rw [openLists_cons]
      exact ih st0 st1 _ (stackOk_step env st st0 n ks hinv hs) hrun

theorem stackOk_init : StackOk init [] := by
  simp [StackOk, init]

/-! ## Items of one ordered list -/

theorem run_append (env : Env) (xs ys : List Node) :
    ∀ st : State, run env st (xs ++ ys) =
      match run env st xs with
      | .error e => .error e
      | .ok st1 => run env st1 ys := by
  induction xs with
  | nil => intro st; rfl
  | cons n ns ih =>
    intro st
    simp only [List.cons_append, run]
    cases step env st n with
    | error e => rfl
    | ok st0 => exact ih st0

/-- While the list with entry `v` stays open, its entry grows by one for each
`li` met while it is the innermost open list, and by nothing else. -/
theorem run_top (env : Env) (mid : List Node) :
    ∀ (st : State) (L0 : List Int) (v : Int) (ext : List Int),
      st.listValue = L0 ++ v :: ext → st.list = st.listValue.length → 1 ≤ v →
      neverUnderflows ext.length mid →
      ∃ st1 ext1, run env st mid = .ok st1 ∧
        st1.listValue = L0 ++ (v + (itemsAtTop ext.length mid : Nat)) :: ext1 ∧
        ext1.length = depthAfter ext.length mid ∧ st1.list = st1.listValue.length := by
  induction mid with
  | nil =>
    intro st L0 v ext hL hinv _ _
    exact ⟨st, ext, rfl, by simp [itemsAtTop, hL], rfl, hinv⟩
  | cons n ns ih =>
    intro st L0 v ext hL hinv hv hnu
    by_cases ho : isListOpen n = true
    · obtain ⟨x, _, _, hs⟩ := step_listOpen env st n ho
      simp only [neverUnderflows, ho, if_true] at hnu
      obtain ⟨st1, ext1, r1, r2, r3, r4⟩ :=
        ih { st with list := st.list + 1, listValue := st.listValue ++ [x] } L0 v (ext ++ [x])
          (by simp [hL]) (by simp [hinv]) hv (by simpa using hnu)
      refine ⟨st1, ext1, by simp [run, hs, r1], ?_, ?_, r4⟩
      · simpa [itemsAtTop, ho] using r2
      · simpa [depthAfter, ho] using r3
    · simp only [Bool.not_eq_true] at ho
      by_cases hc : isListClose n = true
      · have hs := step_listClose env st n hc
        simp only [neverUnderflows, ho, hc, if_true, Bool.false_eq_true, if_false] at hnu
        rcases List.eq_nil_or_concat ext with hnil | ⟨E, w, hE⟩
        · simp [hnil] at hnu
        · rw [List.concat_eq_append] at hE
          have hL2 : st.listValue = (L0 ++ v :: E) ++ [w] := by simp [hL, hE]
          have hne : st.listValue.length ≠ 0 := by simp [hL2]
          simp only [hne, if_false] at hs
          have htake : st.listValue.take (st.listValue.length - 1) = L0 ++ v :: E := by
            rw [hL2, ← List.dropLast_eq_take, List.dropLast_concat]
          obtain ⟨st1, ext1, r1, r2, r3, r4⟩ :=
            ih { st with list := st.list - 1,
                         listValue := st.listValue.take (st.listValue.length - 1) } L0 v E
              htake (by simp [hinv]; omega) hv (by simpa [hE] using hnu.2)
          refine ⟨st1, ext1, by simp [run, hs, r1], ?_, ?_, r4⟩
          · simpa [itemsAtTop, ho, hc, hE] using r2
          · simpa [depthAfter, ho, hc, hE] using r3
      · simp only [Bool.not_eq_true] at hc
        simp only [neverUnderflows, ho, hc, Bool.false_eq_true, if_false] at hnu
        by_cases hl : isLi n = true
        · have hs := step_li env st n hl
          rcases List.eq_nil_or_concat ext with hnil | ⟨E, w, hE⟩
          · subst hnil
            have hL2 : st.listValue = L0 ++ [v] := hL
            have hv0 : v ≠ 0 := by omega
            obtain ⟨st0, hs0, e1, e2⟩ := stepLi_lists st L0 v hL2 hinv
            simp only [hv0, if_false] at e2
            obtain ⟨st1, ext1, r1, r2, r3, r4⟩ :=
              ih st0 L0 (v + 1) [] e2 (by simp [e1, e2, hinv, hL2]) (by omega) hnu
            refine ⟨st1, ext1, by simp [run, hs, hs0, r1], ?_, ?_, r4⟩
            · rw [r2]
              simp [itemsAtTop, ho, hc, hl]
              omega
            · simpa [depthAfter, ho, hc] using r3
          · rw [List.concat_eq_append] at hE
            have hL2 : st.listValue = (L0 ++ v :: E) ++ [w] := by simp [hL, hE]
            obtain ⟨st0, hs0, e1, e2⟩ := stepLi_lists st (L0 ++ v :: E) w hL2 hinv
            have hd : (ext.length == 0) = false := by simp [hE]
            obtain ⟨st1, ext1, r1, r2, r3, r4⟩ :=
              ih st0 L0 v (E ++ [if w = 0 then w else w + 1]) (by simp [e2])
                (by simp [e1, e2, hinv, hL2]) hv (by simpa [hE] using hnu)
            refine ⟨st1, ext1, by simp [run, hs, hs0, r1], ?_, ?_, r4⟩
            · simpa [itemsAtTop, ho, hc, hl, hd, hE] using r2
            · simpa [depthAfter, ho, hc, hE] using r3
        · simp only [Bool.not_eq_true] at hl
          obtain ⟨st0, hs, e1, e2⟩ := step_other_lists env st n ho hc hl
          obtain ⟨st1, ext1, r1, r2, r3, r4⟩ :=
            ih st0 L0 v ext (by rw [e2, hL]) (by rw [e1, e2, hinv]) hv hnu
          refine ⟨st1, ext1, by simp [run, hs, r1], ?_, ?_, r4⟩
          · simpa [itemsAtTop, ho, hc, hl] using r2
          · simpa [depthAfter, ho, hc] using r3

/-! ## Item lines -/

theorem chunk_of_append (a b : String) :
    String.mk ((a ++ b).data.drop a.data.length) = b := by
  apply String.ext
  simp

theorem step_item (env : Env) (st : State) (n : Node) (ks : List ListKind)
    (hinv : StackOk st ks) (hnu : isListClose n = true → st.listValue.length ≠ 0) :
    ∃ st1, step env st n = .ok st1 ∧
      st1.listValue.length = depthAfter st.listValue.length [n] ∧
      (isLi n = true → IsItemLine (String.mk (st1.value.data.drop st.value.data.length))) := by
  obtain ⟨h1, h2, _⟩ := hinv
  by_cases ho : isListOpen n = true
  · obtain ⟨v, _, _, hs⟩ := step_listOpen env st n ho
    refine ⟨_, hs, by simp [depthAfter, ho], ?_⟩
    intro hl
    rw [isLi_of_open n ho] at hl
    cases hl
  · simp only [Bool.not_eq_true] at ho
    by_cases hc : isListClose n = true
    · have hs := step_listClose env st n hc
      simp only [hnu hc, if_false] at hs
      refine ⟨_, hs, by simp [depthAfter, ho, hc], ?_⟩
      intro hl
      rw [isLi_of_close n hc] at hl
      cases hl
    · simp only [Bool.not_eq_true] at hc
      by_cases hl : isLi n = true
      · rw [step_li env st n hl]
        rcases List.eq_nil_or_concat st.listValue with hnil | ⟨L, v, hL⟩
        · rw [stepLi_nil st (by simp [h1, hnil])]
          refine ⟨_, rfl, by simp [depthAfter, ho, hc, write], ?_⟩
          intro _
          simp only [write, chunk_of_append]
          exact ⟨0, "", by simp, Or.inl rfl⟩
        · rw [List.concat_eq_append] at hL
          rw [stepLi_snoc st L v hL h1]
          have hv0 : 0 ≤ v := h2 v (by simp [hL])
          by_cases hv : v = 0
          · simp only [hv, if_true]
            refine ⟨_, rfl, by simp [depthAfter, ho, hc, write], ?_⟩
            intro _
            simp only [write, chunk_of_append]
            exact ⟨L.length + 1, "- ", rfl, Or.inr (Or.inl rfl)⟩
          · simp only [hv, if_false]
            refine ⟨_, rfl, by simp [depthAfter, ho, hc, hL], ?_⟩
            intro _
            simp only [write, chunk_of_append]
            exact ⟨L.length + 1, toString v ++ ".", by simp [String.append_assoc],
              Or.inr (Or.inr ⟨v, by omega, rfl⟩)⟩
      · simp only [Bool.not_eq_true] at hl
        obtain ⟨st0, hs, _, e2⟩ := step_other_lists env st n ho hc hl
        refine ⟨st0, hs, by simp [depthAfter, ho, hc, e2], ?_⟩
        intro h
        rw [hl] at h
        cases h

theorem neverUnderflows_cons (d : Nat) (n : Node) (ns : List Node)
    (h : neverUnderflows d (n :: ns)) :
    (isListClose n = true → d ≠ 0) ∧ neverUnderflows (depthAfter d [n]) ns := by
  by_cases ho : isListOpen n = true
  · have hc := isListClose_of_open n ho
    simp only [neverUnderflows, ho, if_true] at h
    simpa [depthAfter, ho, hc] using h
  · simp only [Bool.not_eq_true] at ho
    by_cases hc : isListClose n = true
    · simp only [neverUnderflows, ho, hc, if_true, Bool.false_eq_true, if_false] at h
      simp only [depthAfter, ho, hc, if_true, Bool.false_eq_true, if_false]
      exact ⟨fun _ => by omega, h.2⟩
    · simp only [Bool.not_eq_true] at hc
      simp only [neverUnderflows, ho, hc, Bool.false_eq_true, if_false] at h
      simpa [depthAfter, ho, hc] using h

/-- Every start tag `li` of a sequence that never closes a list on an empty
stack appends one item line. -/
theorem itemLines_spec (env : Env) (ts : List Node) :
    ∀ (st : State) (ks : List ListKind), StackOk st ks →
      neverUnderflows st.listValue.length ts →
      (itemLines env st ts).length = ts.countP isLi ∧
        ∀ l ∈ itemLines env st ts, IsItemLine l := by
  induction ts with
  | nil => intro st ks _ _; simp [itemLines]
  | cons n ns ih =>
    intro st ks hinv hnu
    obtain ⟨hn, hrest⟩ := neverUnderflows_cons _ n ns hnu
    obtain ⟨st1, hs, hlen, hline⟩ := step_item env st n ks hinv hn
    obtain ⟨ih1, ih2⟩ := ih st1 _ (stackOk_step env st st1 n ks hinv hs) (by rw [hlen]; exact hrest)
    by_cases hl : isLi n = true
    · simp only [itemLines, hs, hl, if_true, List.length_cons, ih1, List.countP_cons]
      refine ⟨by simp, ?_⟩
      intro l hmem
      simp only [List.mem_cons] at hmem
      rcases hmem with rfl | hmem
      · exact hline hl
      · exact ih2 l hmem
    · simp only [Bool.not_eq_true] at hl
      simp only [itemLines, hs, hl, Bool.false_eq_true, if_false, ih1, List.countP_cons]
      exact ⟨by simp, ih2⟩

/-! ## The `pre` flag -/

theorem stepLi_frame (st st1 : State) (h : stepLi st = .ok st1) :
    st1.insidePre = st.insidePre ∧ st1.header = st.header ∧ st1.table = st.table ∧
      st1.stdout = st.stdout := by
  unfold stepLi at h
  simp only [writeIndent_eq] at h
  split at h
  · split at h
    · cases h
    · split at h <;> cases h <;> simp [write]
  · cases h
    simp [write]

theorem step_insidePre (env : Env) (st : State) (n : Node)
    (ho : isPreOpen n = false) (hc : isPreClose n = false) :
    ∀ st1, step env st n = .ok st1 → st1.insidePre = st.insidePre := by
  unfold step
  split
  · unfold stepSelfClosing
    split <;> first
      | (intro st1 h; cases h; simp [write, writeMedia])
      | (intro st1 h; split at h <;> cases h <;> simp [write])
  · unfold stepStart
    split <;> first
      | (intro st1 h; cases h; simp [write, writeMedia]; done)
      | (intro st1 h; split at h <;> cases h <;> simp [write])
      | exact fun st1 h => (stepLi_frame st st1 h).1
      | (simp_all [isPreOpen])
  · unfold stepEnd
    split <;> first
      | (intro st1 h; cases h; simp [write]; done)
      | (intro st1 h; split at h <;> cases h <;> simp [write])
      | (simp_all [isPreClose])
  · intro st1 h; cases h; simp [write]
  · intro st1 h; cases h; rfl

theorem step_preOpen (env : Env) (st : State) (n : Node) (h : isPreOpen n = true) :
    step env st n = .ok { write st "\n#+BEGIN_SRC\n" with insidePre := true } := by
  obtain ⟨⟨ty, data, attrs⟩, txt⟩ := n
  simp only [isPreOpen, Bool.and_eq_true, decide_eq_true_eq] at h
  obtain ⟨rfl, rfl⟩ := h
  simp [step, stepStart]

theorem step_preClose (env : Env) (st : State) (n : Node) (h : isPreClose n = true) :
    step env st n = .ok { write st "\n#+END_SRC\n" with insidePre := false } := by
  obtain ⟨⟨ty, data, attrs⟩, txt⟩ := n
  simp only [isPreClose, Bool.and_eq_true, decide_eq_true_eq] at h
  obtain ⟨rfl, rfl⟩ := h
  simp [step, stepEnd]

theorem step_code (env : Env) (st : State) (n : Node) (h : isCodeTag n = true) :
    step env st n = .ok (if st.insidePre then st else write st "~") := by
  obtain ⟨⟨ty, data, attrs⟩, txt⟩ := n
  simp only [isCodeTag, Bool.and_eq_true, Bool.or_eq_true, decide_eq_true_eq] at h
  obtain ⟨v, hd, tb, ip, l, lv, o⟩ := st
  obtain ⟨rfl | rfl, (rfl | rfl) | rfl⟩ := h <;> cases ip <;> rfl

theorem run_insidePre_true (env : Env) (mid : List Node) :
    ∀ st st1 : State, st.insidePre = true → (∀ m ∈ mid, isPreClose m = false) →
      run env st mid = .ok st1 → st1.insidePre = true := by
  induction mid with
  | nil => intro st st1 h _ hrun; cases hrun; exact h
  | cons n ns ih =>
    intro st st1 h hmid hrun
    simp only [run] at hrun
    cases hs : step env st n with
    | error e => simp [hs] at hrun
    | ok st0 =>
      simp only [hs] at hrun
      refine ih st0 st1 ?_ (fun m hm => hmid m (List.mem_cons_of_mem _ hm)) hrun
      by_cases ho : isPreOpen n = true
      · rw [step_preOpen env st n ho] at hs
        cases hs
        rfl
      · simp only [Bool.not_eq_true] at ho
        rw [step_insidePre env st n ho (hmid n (List.mem_cons_self _ _)) st0 hs, h]

theorem run_insidePre_false (env : Env) (mid : List Node) :
    ∀ st st1 : State, st.insidePre = false → (∀ m ∈ mid, isPreOpen m = false) →
      run env st mid = .ok st1 → st1.insidePre = false := by
  induction mid with
  | nil => intro st st1 h _ hrun; cases hrun; exact h
  | cons n ns ih =>
    intro st st1 h hmid hrun
    simp only [run] at hrun
    cases hs : step env st n with
    | error e => simp [hs] at hrun
    | ok st0 =>
      simp only [hs] at hrun
      refine ih st0 st1 ?_ (fun m hm => hmid m (List.mem_cons_of_mem _ hm)) hrun
      by_cases hc : isPreClose n = true
      · rw [step_preClose env st n hc] at hs
        cases hs
        rfl
      · simp only [Bool.not_eq_true] at hc
        rw [step_insidePre env st n (hmid n (List.mem_cons_self _ _)) hc st0 hs, h]

theorem run_cons_ok (env : Env) (pre : List Node) (p : Node) (mid : List Node) (st : State)
    (h : run env init (pre ++ p :: mid) = .ok st) :
    ∃ st0 st1, run env init pre = .ok st0 ∧ step env st0 p = .ok st1 ∧
      run env st1 mid = .ok st := by
  rw [run_append] at h
  cases h0 : run env init pre with
  | error e => simp [h0] at h
  | ok st0 =>
    simp only [h0, run] at h
    cases h1 : step env st0 p with
    | error e => simp [h1] at h
    | ok st1 =>
      simp only [h1] at h
      exact ⟨st0, st1, rfl, h1, h⟩

/-! ## Ignored tokens -/

theorem stepLi_congr (st : State) (t : Int) (o : List String) :
    coreR (stepLi { st with table := t, stdout := o }) = coreR (stepLi st) := by
  unfold stepLi
  simp only [writeIndent_eq, write]
  split
  · split
    · rfl
    · split <;> simp [coreR, core]
  · simp [coreR, core]

/-- A step does not read `table` or the printed lines. -/
theorem step_congr (env : Env) (st : State) (n : Node) (t : Int) (o : List String) :
    coreR (step env { st with table := t, stdout := o } n) = coreR (step env st n) := by
  unfold step
  split
  · unfold stepSelfClosing
    split <;> first
      | (simp [coreR, core, write, writeMedia]; done)
      | (split <;> simp [coreR, core, write])
  · unfold stepStart
    split <;> first
      | (simp [coreR, core, write, writeMedia]; done)
      | exact stepLi_congr st t o
      | (split <;> simp_all [coreR, core, write])
  · unfold stepEnd
    split <;> first
      | (simp [coreR, core, write]; done)
      | (split <;> simp_all [coreR, core, write])
  · simp [coreR, core, write]
  · simp [coreR, core]

theorem eq_of_core_eq (a b : State) (h : core a = core b) :
    a = { b with table := a.table, stdout := a.stdout } := by
  obtain ⟨v, hd, tb, ip, l, lv, o⟩ := a
  obtain ⟨v2, hd2, tb2, ip2, l2, lv2, o2⟩ := b
  simp only [core, Prod.mk.injEq] at h
  obtain ⟨rfl, rfl, rfl, rfl, rfl⟩ := h
  rfl

theorem run_congr (env : Env) (ys : List Node) :
    ∀ (st : State) (t : Int) (o : List String),
      coreR (run env { st with table := t, stdout := o } ys) = coreR (run env st ys) := by
  induction ys with
  | nil => intro st t o; rfl
  | cons n ns ih =>
    intro st t o
    have hstep := step_congr env st n t o
    simp only [run]
    cases h1 : step env st n with
    | error e =>
      cases h2 : step env { st with table := t, stdout := o } n with
      | error e2 =>
        rw [h1, h2] at hstep
        simpa [coreR] using hstep
      | ok s2 =>
        rw [h1, h2] at hstep
        simp [coreR] at hstep
    | ok s1 =>
      cases h2 : step env { st with table := t, stdout := o } n with
      | error e2 =>
        rw [h1, h2] at hstep
        simp [coreR] at hstep
      | ok s2 =>
        rw [h1, h2] at hstep
        simp only [coreR, Except.ok.injEq] at hstep
        rw [eq_of_core_eq s2 s1 hstep]
        exact ih s1 _ _

/-- An ignored token changes at most `table` and the printed lines. -/
theorem step_ignored (env : Env) (st : State) (n : Node) (h : isIgnored n = true) :
    ∃ (t : Int) (o : List String), step env st n = .ok { st with table := t, stdout := o } := by
  unfold step
  split
  · unfold stepSelfClosing
    split <;> first
      | exact ⟨_, _, rfl⟩
      | (exfalso; simp_all [isIgnored])
  · unfold stepStart
    split <;> first
      | exact ⟨_, _, rfl⟩
      | (exfalso; simp_all [isIgnored, ignoredStartTags, startCaseTags])
  · unfold stepEnd
    split <;> first
      | exact ⟨_, _, rfl⟩
      | (exfalso; simp_all [isIgnored, endCaseTags])
  · rename_i hty
    simp [isIgnored, hty] at h
  · rename_i h1 h2 h3 h4
    exfalso
    revert h
    unfold isIgnored
    split <;> simp_all

theorem orgFormat_eq_of_coreR (env : Env) (xs ys : Nodes)
    (h : coreR (run env init xs) = coreR (run env init ys)) :
    Nodes.orgFormat env xs = Nodes.orgFormat env ys := by
  unfold Nodes.orgFormat
  cases h1 : run env init xs with
  | error e =>
    cases h2 : run env init ys with
    | error e2 =>
      rw [h1, h2] at h
      simpa [coreR] using h
    | ok s2 =>
      rw [h1, h2] at h
      simp [coreR] at h
  | ok s1 =>
    cases h2 : run env init ys with
    | error e2 =>
      rw [h1, h2] at h
      simp [coreR] at h
    | ok s2 =>
      rw [h1, h2] at h
      simp only [coreR, core, Except.ok.injEq, Prod.mk.injEq] at h
      simp [h.1]

/-! ## Title sanitization -/

theorem replaceChar_delete (s : String) (c : Char) :
    replaceChar s c "" = String.mk (s.data.filter (fun x => decide (x ≠ c))) := by
  unfold replaceChar
  congr 1
  induction s.data with
  | nil => rfl
  | cons x xs ih =>
    by_cases h : x = c
    · simp [List.flatMap_cons, h] at ih ⊢
      exact ih
    · simp [List.flatMap_cons, h] at ih ⊢
      exact ih

theorem replaceChar_map (s : String) (c d : Char) :
    replaceChar s c (String.mk [d]) = String.mk (s.data.map (fun x => if x = c then d else x)) := by
  unfold replaceChar
  congr 1
  induction s.data with
  | nil => rfl
  | cons x xs ih =>
    by_cases h : x = c
    · simp [List.flatMap_cons, h] at ih ⊢
      exact ih
    · simp [List.flatMap_cons, h] at ih ⊢
      exact ih

/-- The chain of replacements is one filter followed by one map. -/
theorem sanitize_eq_spec (lib : GoLib) (title : String) :
    sanitize lib title = sanitizeSpec lib title := by
  have hy : ("-" : String) = String.mk ['-'] := rfl
  unfold sanitize sanitizeSpec keptChars
  simp only [replaceChar_delete, hy, replaceChar_map, List.filter_filter]
  congr 2
  apply List.filter_congr
  intro c _
  simp only [deletedChars, List.mem_cons, List.mem_singleton, List.not_mem_nil, or_false,
    not_or, ne_eq, Bool.decide_and, Bool.and_eq_true, decide_eq_true_eq, decide_not,
    Bool.not_eq_true', decide_eq_false_iff_not]
  ac_rfl

theorem mem_keptChars (lib : GoLib) (title : String) (c : Char) (h : c ∈ keptChars lib title) :
    c ∉ deletedChars := by
  unfold keptChars at h
  simpa using (List.mem_filter.mp h).2

/-! ## Parsing the creation time -/

theorem digits_foldl_ge (cs : List Char) :
    ∀ a : Nat, a ≤ cs.foldl (fun n c => n * 10 + (c.toNat - 48)) a := by
  induction cs with
  | nil => intro a; exact le_refl a
  | cons c cs ih =>
    intro a
    simp only [List.foldl_cons]
    have := ih (a * 10 + (c.toNat - 48))
    omega

/-- The loop of `ParseUint` accepts exactly the runs of digits whose value
stays below `2^64`. -/
theorem parseUintLoop_ok (cs : List Char) :
    ∀ n m : Nat, n ≤ 2 ^ 64 - 1 →
      (parseUintLoop cs n = .ok m ↔
        cs.all isDigit = true ∧ cs.foldl (fun n c => n * 10 + (c.toNat - 48)) n = m ∧
          m ≤ 2 ^ 64 - 1) := by
  induction cs with
  | nil =>
    intro n m hn
    simp only [parseUintLoop, Except.ok.injEq, List.all_nil, List.foldl_nil, true_and]
    constructor
    · intro h; subst h; exact ⟨rfl, hn⟩
    · intro h; exact h.1
  | cons c cs ih =>
    intro n m hn
    have hge := digits_foldl_ge cs (n * 10 + (c.toNat - 48))
    simp only [parseUintLoop, List.all_cons, List.foldl_cons, Bool.and_eq_true]
    by_cases hd : 48 ≤ c.toNat ∧ c.toNat ≤ 57
    · have hdig : isDigit c = true := by simp [isDigit, hd.1, hd.2]
      simp only [hd, and_self, if_true, hdig, true_and]
      by_cases h1 : n ≥ (2 ^ 64 - 1) / 10 + 1
      · simp only [h1, if_true]
        constructor
        · intro h; cases h
        · rintro ⟨_, rfl, hm⟩
          norm_num at h1 hm
          omega
      · simp only [h1, if_false]
        by_cases h2 : n * 10 + (c.toNat - 48) > 2 ^ 64 - 1
        · simp only [h2, if_true]
          constructor
          · intro h; cases h
          · rintro ⟨_, rfl, hm⟩
            omega
        · simp only [h2, if_false]
          exact ih _ m (by omega)
    · have hdig : isDigit c = false := by
        simp only [isDigit, Bool.and_eq_false_iff, decide_eq_false_iff_not]
        by_cases h : 48 ≤ c.toNat
        · exact Or.inr (fun h2 => hd ⟨h, h2⟩)
        · exact Or.inl h
      simp only [hd, if_false, hdig]
      constructor
      · intro h; cases h
      · rintro ⟨⟨h, _⟩, _⟩; cases h

theorem parseUint_ok (cs : List Char) (m : Nat) :
    parseUint cs = .ok m ↔
      cs ≠ [] ∧ cs.all isDigit = true ∧ digitsValue cs = m ∧ m ≤ 2 ^ 64 - 1 := by
  unfold parseUint digitsValue
  by_cases h : cs = []
  · simp [h]
  · simp only [h, if_false, ne_eq, not_false_eq_true, true_and]
    exact parseUintLoop_ok cs 0 m (by norm_num)

/-- The parser `strconv.ParseInt(s, 10, 64)` accepts exactly the base-10
integers from `-2^63` to `2^63 - 1`, and returns their value. -/
theorem parseInt_ok (s : String) (v : Int) :
    parseInt s = .ok v ↔
      isBase10Integer s = true ∧ inInt64 (base10Value s) = true ∧ base10Value s = v := by
  unfold parseInt
  by_cases hs : s = ""
  · subst hs
    simp only [if_true]
    constructor
    · intro h; cases h
    · rintro ⟨h, _⟩
      have h0 : isBase10Integer "" = false := by decide
      rw [h0] at h
      cases h
  · simp only [hs, if_false]
    have hrest : (if s.data.head? = some '+' ∨ s.data.head? = some '-' then s.data.tail
        else s.data) = unsignedPart s := rfl
    rw [hrest]
    cases hp : parseUint (unsignedPart s) with
    | error err =>
      simp only
      constructor
      · intro h; cases h
      · rintro ⟨hb, hin, _⟩
        exfalso
        simp only [isBase10Integer, Bool.and_eq_true, decide_eq_true_eq] at hb
        have hno : ¬ (digitsValue (unsignedPart s) ≤ 2 ^ 64 - 1) := by
          intro hle
          have := (parseUint_ok (unsignedPart s) _).mpr ⟨hb.1, hb.2, rfl, hle⟩
          rw [hp] at this
          cases this
        simp only [inInt64, base10Value, Bool.and_eq_true, decide_eq_true_eq] at hin
        norm_num at hno
        split at hin <;> omega
    | ok un =>
      obtain ⟨hne, hall, hval, hmax⟩ := (parseUint_ok (unsignedPart s) un).mp hp
      have hb : isBase10Integer s = true := by
        simp [isBase10Integer, hne, hall]
      simp only [hb, true_and, inInt64, base10Value, hval, Bool.and_eq_true, decide_eq_true_eq]
      by_cases hneg : s.data.head? = some '-'
      · by_cases h1 : un > 2 ^ 63
        · simp only [hneg, h1, decide_True, Bool.not_true, Bool.false_and, Bool.false_eq_true,
            if_false, Bool.true_and, if_true]
          constructor
          · intro h; cases h
          · rintro ⟨⟨h, _⟩, _⟩
            norm_num at h1 h
            omega
        · simp only [hneg, h1, decide_True, decide_False, Bool.not_true, Bool.false_and,
            Bool.false_eq_true, if_false, Bool.true_and, if_true, Bool.and_false,
            Except.ok.injEq, false_and, and_false]
          constructor
          · intro h
            refine ⟨⟨?_, ?_⟩, h⟩
            · norm_num at h1 ⊢; omega
            · norm_num at h1 ⊢; omega
          · intro h; exact h.2
      · by_cases h1 : un ≥ 2 ^ 63
        · simp only [hneg, h1, decide_True, decide_False, Bool.not_false, Bool.true_and,
            if_true]
          constructor
          · intro h; cases h
          · rintro ⟨⟨_, h⟩, _⟩
            norm_num at h1 h
            omega
        · simp only [hneg, h1, decide_False, Bool.not_false, Bool.true_and, Bool.false_and,
            Bool.false_eq_true, if_false, Except.ok.injEq, false_and, and_false]
          constructor
          · intro h
            refine ⟨⟨?_, ?_⟩, h⟩
            · norm_num at h1 ⊢; omega
            · norm_num at h1 ⊢; omega
          · intro h; exact h.2

/-- The property block is the lines before the date, the date line if there
is a creation time, and the lines after the date; only the creation time can
make it fail. -/
theorem orgProperties_eq (lib : GoLib) (note : Note) :
    note.orgProperties lib =
      if note.Created = "" then
        .ok (propertiesBeforeDate note ++ propertiesAfterDate lib note)
      else
        match parseInt note.Created with
        | .error err => .error err
        | .ok c =>
          .ok (propertiesBeforeDate note ++ "#+DATE: " ++ lib.unixString (c.tdiv 1000) ++ "\n"
            ++ propertiesAfterDate lib note) := by
  have e : ("\n#+STARTUP: showall\n" : String) = "\n" ++ ("#+STARTUP: showall" ++ "\n") := by
    decide
  have htags : (note.Tags.length > 0) ↔ note.Tags ≠ [] := by
    cases note.Tags <;> simp
  unfold Note.orgProperties propertiesBeforeDate propertiesAfterDate
  rw [e]
  simp only [htags, ne_eq]
  by_cases h0 : note.Created = ""
  · simp only [h0, not_true_eq_false, if_false, if_true]
    by_cases h1 : note.Attributes.Author = "" <;> by_cases h2 : note.Tags = [] <;>
      by_cases h3 : note.Attributes.Source = "" <;>
      by_cases h4 : note.Attributes.SourceUrl = "" <;> by_cases h5 : note.Guid = "" <;>
      cases h6 : note.Attributes.Latitude.gtZero <;>
      simp only [h1, h2, h3, h4, h5, not_true_eq_false, not_false_eq_true, if_true, if_false,
        String.append_assoc, String.append_empty, String.empty_append, Bool.false_eq_true]
  · simp only [h0, not_false_eq_true, if_false, if_true]
    cases parseInt note.Created with
    | error err => rfl
    | ok c =>
      simp only
      by_cases h1 : note.Attributes.Author = "" <;> by_cases h2 : note.Tags = [] <;>
        by_cases h3 : note.Attributes.Source = "" <;>
        by_cases h4 : note.Attributes.SourceUrl = "" <;> by_cases h5 : note.Guid = "" <;>
        cases h6 : note.Attributes.Latitude.gtZero <;>
        simp only [h1, h2, h3, h4, h5, not_true_eq_false, not_false_eq_true, if_true, if_false,
          String.append_assoc, String.append_empty, String.empty_append, Bool.false_eq_true]

/-! ## The attachment map -/

theorem lookup_mapSet (m : List (String × String)) (k v h : String) :
    (mapSet m k v).lookup h = if h = k then some v else m.lookup h := by
  unfold mapSet
  by_cases hk : h = k
  · simp [List.lookup_cons, hk]
  · have : (h == k) = false := by simpa using hk
    simp [List.lookup_cons, hk, this]

theorem recordAttachments_append (xs ys : List Resource) :
    ∀ m, recordAttachments m (xs ++ ys) = recordAttachments (recordAttachments m xs) ys := by
  induction xs with
  | nil => intro m; rfl
  | cons x xs ih =>
    intro m
    rw [List.cons_append]
    simp only [recordAttachments]
    exact ih _

theorem recordAttachments_other (rs : List Resource) (h : String) :
    ∀ m, (∀ r ∈ rs, r.Data.Hash ≠ h) → (recordAttachments m rs).lookup h = m.lookup h := by
  induction rs with
  | nil => intro m _; rfl
  | cons r rs ih =>
    intro m hne
    simp only [recordAttachments]
    rw [ih _ (fun x hx => hne x (List.mem_cons_of_mem _ hx)), lookup_mapSet]
    have : h ≠ r.Data.Hash := fun e => hne r (List.mem_cons_self _ _) e.symm
    simp [this]

theorem last_with_hash (rs : List Resource) (h : String) (hex : ∃ r ∈ rs, r.Data.Hash = h) :
    ∃ (pre post : List Resource) (r : Resource), rs = pre ++ r :: post ∧ r.Data.Hash = h ∧
      ∀ x ∈ post, x.Data.Hash ≠ h := by
  induction rs with
  | nil =>
    obtain ⟨r, hr, _⟩ := hex
    cases hr
  | cons a rs ih =>
    by_cases hin : ∃ r ∈ rs, r.Data.Hash = h
    · obtain ⟨pre, post, r, hrs, hr, hpost⟩ := ih hin
      exact ⟨a :: pre, post, r, by rw [hrs]; rfl, hr, hpost⟩
    · obtain ⟨r, hr, hrh⟩ := hex
      have ha : a.Data.Hash = h := by
        rcases List.mem_cons.mp hr with rfl | hr2
        · exact hrh
        · exact absurd ⟨r, hr2, hrh⟩ hin
      refine ⟨[], rs, a, rfl, ha, ?_⟩
      intro x hx hxh
      exact hin ⟨x, hx, hxh⟩

/-! ## Attribute lookup -/

theorem getAttrLoop_find (key : String) (attrs : List Attribute) :
    getAttrLoop key attrs =
      match attrs.find? (fun a => decide (a.Key = key)) with
      | some a => a.Val
      | none => "" := by
  induction attrs with
  | nil => rfl
  | cons a rest ih =>
    by_cases h : a.Key = key
    · simp [getAttrLoop, List.find?_cons, h]
    · simp [getAttrLoop, List.find?_cons, h, ih]

theorem getAttrLoop_first (key : String) (pre : List Attribute) (a : Attribute)
    (post : List Attribute) (ha : a.Key = key) (hpre : ∀ b ∈ pre, b.Key ≠ key) :
    getAttrLoop key (pre ++ a :: post) = a.Val := by
  induction pre with
  | nil => simp [getAttrLoop, ha]
  | cons b pre ih =>
    have hb : b.Key ≠ key := hpre b (List.mem_cons_self _ _)
    simp only [List.cons_append, getAttrLoop, hb, if_false]
    exact ih (fun x hx => hpre x (List.mem_cons_of_mem _ hx))

theorem getAttrLoop_none (key : String) (attrs : List Attribute)
    (h : ∀ a ∈ attrs, a.Key ≠ key) : getAttrLoop key attrs = "" := by
  induction attrs with
  | nil => rfl
  | cons a rest ih =>
    have ha : a.Key ≠ key := h a (List.mem_cons_self _ _)
    simp only [getAttrLoop, ha, if_false]
    exact ih (fun x hx => h x (List.mem_cons_of_mem _ hx))

/-! ## Stack entries and table rows -/

theorem entryFits_of_nonneg (l : List Int) (h : ∀ x ∈ l, 0 ≤ x) :
    List.Forall₂ entryFits l (l.map kindOfEntry) := by
  induction l with
  | nil => exact List.Forall₂.nil
  | cons v l ih =>
    refine List.Forall₂.cons ?_ (ih (fun x hx => h x (List.mem_cons_of_mem _ hx)))
    have hv : 0 ≤ v := h v (List.mem_cons_self _ _)
    by_cases h0 : v = 0
    · simp [kindOfEntry, entryFits, h0]
    · simp only [kindOfEntry, h0, if_false, entryFits]
      omega

theorem run_cells (env : Env) (cells : List String) :
    ∀ st : State,
      run env st (cells.flatMap (fun c => [startTag "td", textTok c, endTag "td"]))
        = .ok (write st (cellsText cells)) := by
  induction cells with
  | nil =>
    intro st
    simp [run, cellsText, write]
  | cons c cs ih =>
    intro st
    have h : run env st [startTag "td", textTok c, endTag "td"]
        = .ok (write (write st "|") c) := rfl
    rw [List.flatMap_cons, run_append, h]
    simp only
    rw [ih]
    simp [write, cellsText, String.append_assoc]

/-- A row started in any state appends its cells, a pipe and a newline. -/
theorem run_row (env : Env) (cells : List String) (st : State) :
    run env st (rowTokens cells) = .ok (write st (cellsText cells ++ "|\n")) := by
  have h1 : run env st [startTag "tr"] = .ok st := rfl
  have h2 : run env (write st (cellsText cells)) [endTag "tr"]
      = .ok (write (write st (cellsText cells)) "|\n") := rfl
  have hsplit : rowTokens cells
      = [startTag "tr"]
        ++ (cells.flatMap (fun c => [startTag "td", textTok c, endTag "td"])
        ++ [endTag "tr"]) := rfl
  rw [hsplit, run_append, h1]
  simp only
  rw [run_append, run_cells]
  simp only
  rw [h2]
  simp [write, String.append_assoc]

/-! ## The heading counter -/

theorem step_header_other (env : Env) (st : State) (n : Node)
    (ho : isHeadingOpen n = false) (hc : isHeadingClose n = false) :
    ∀ st1, step env st n = .ok st1 → st1.header = st.header := by
  unfold step
  split
  · unfold stepSelfClosing
    split <;> first
      | (intro st1 h; cases h; simp [write, writeMedia])
      | (intro st1 h; split at h <;> cases h <;> simp [write])
  · unfold stepStart
    split <;> first
      | (intro st1 h; cases h; simp [write, writeMedia]; done)
      | (intro st1 h; split at h <;> cases h <;> simp [write])
      | exact fun st1 h => (stepLi_frame st st1 h).2.1
      | (simp_all [isHeadingOpen, headingTags])
  · unfold stepEnd
    split <;> first
      | (intro st1 h; cases h; simp [write]; done)
      | (intro st1 h; split at h <;> cases h <;> simp [write])
      | (simp_all [isHeadingClose, headingTags])
  · intro st1 h; cases h; simp [write]
  · intro st1 h; cases h; rfl

theorem step_headingOpen (env : Env) (st : State) (n : Node) (h : isHeadingOpen n = true) :
    ∃ s, step env st n = .ok { write st s with header := st.header + 1 } := by
  obtain ⟨⟨ty, data, attrs⟩, txt⟩ := n
  simp only [isHeadingOpen, headingTags, Bool.and_eq_true, decide_eq_true_eq, List.mem_cons,
    List.mem_singleton, List.not_mem_nil, or_false] at h
  obtain ⟨rfl, rfl | rfl | rfl | rfl | rfl | rfl⟩ := h <;> exact ⟨_, rfl⟩

theorem step_headingClose (env : Env) (st : State) (n : Node) (h : isHeadingClose n = true) :
    step env st n = .ok { st with header := st.header - 1 } := by
  obtain ⟨⟨ty, data, attrs⟩, txt⟩ := n
  simp only [isHeadingClose, headingTags, Bool.and_eq_true, decide_eq_true_eq, List.mem_cons,
    List.mem_singleton, List.not_mem_nil, or_false] at h
  obtain ⟨rfl, rfl | rfl | rfl | rfl | rfl | rfl⟩ := h <;> rfl

theorem isHeadingClose_of_open (n : Node) (h : isHeadingOpen n = true) :
    isHeadingClose n = false := by
  simp only [isHeadingOpen, Bool.and_eq_true, decide_eq_true_eq] at h
  simp [isHeadingClose, h.1]

/-- The heading counter is the number of heading start tags minus the number
of heading end tags processed. -/
theorem run_header (env : Env) (ts : List Node) :
    ∀ st st1 : State, run env st ts = .ok st1 →
      st1.header = st.header + ts.countP isHeadingOpen - ts.countP isHeadingClose := by
  induction ts with
  | nil => intro st st1 h; cases h; simp
  | cons n ns ih =>
    intro st st1 hrun
    simp only [run] at hrun
    cases hs : step env st n with
    | error e => simp [hs] at hrun
    | ok st0 =>
      simp only [hs] at hrun
      have h1 := ih st0 st1 hrun
      by_cases ho : isHeadingOpen n = true
      · obtain ⟨s, hstep⟩ := step_headingOpen env st n ho
        rw [hstep] at hs
        cases hs
        have hc := isHeadingClose_of_open n ho
        simp only [List.countP_cons, ho, hc, if_true, Bool.false_eq_true, if_false,
          Nat.add_zero, Nat.cast_add, Nat.cast_one] at h1 ⊢
        omega
      · simp only [Bool.not_eq_true] at ho
        by_cases hc : isHeadingClose n = true
        · rw [step_headingClose env st n hc] at hs
          cases hs
          simp only [List.countP_cons, ho, hc, if_true, Bool.false_eq_true, if_false,
            Nat.add_zero, Nat.cast_add, Nat.cast_one] at h1 ⊢
          omega
        · simp only [Bool.not_eq_true] at hc
          have := step_header_other env st n ho hc st0 hs
          simp only [List.countP_cons, ho, hc, Bool.false_eq_true, if_false,
            Nat.add_zero] at h1 ⊢
          omega

/-! ## Start-tag form and self-closing form -/

/-- A self-closing tag that changes `value` is `en-media`, `en-todo`, `br` or
`hr`. -/
theorem selfClosing_changes (env : Env) (st s1 : State) (name : String)
    (attrs : List Attribute) (h : step env st (selfClosingTag name attrs) = .ok s1)
    (hne : s1.value ≠ st.value) :
    name = "en-media" ∨ name = "en-todo" ∨ name = "br" ∨ name = "hr" := by
  simp only [step, selfClosingTag, stepSelfClosing] at h
  split at h
  · cases h; exact absurd rfl hne
  · exact Or.inl rfl
  · exact Or.inr (Or.inl rfl)
  · exact Or.inr (Or.inr (Or.inl rfl))
  · exact Or.inr (Or.inr (Or.inr rfl))
  · cases h; exact absurd rfl hne

/-! ## Tokens that do not read the `pre` flag -/

theorem stepLi_pre_congr (st : State) (b : Bool) :
    besidesPreR (stepLi { st with insidePre := b }) = besidesPreR (stepLi st) := by
  unfold stepLi
  simp only [writeIndent_eq, write]
  split
  · split
    · rfl
    · split <;> simp [besidesPreR, besidesPre]
  · simp [besidesPreR, besidesPre]

theorem stepStart_pre_congr (env : Env) (st : State) (token : Token) (b : Bool)
    (hn : ¬ (token.Data = "code" ∨ token.Data = "tt" ∨ token.Data = "kbd")) :
    besidesPreR (stepStart env { st with insidePre := b } token)
      = besidesPreR (stepStart env st token) := by
  unfold stepStart
  split <;> first
    | (simp [besidesPreR, besidesPre, write, writeMedia]; done)
    | exact stepLi_pre_congr st b
    | (split <;> simp_all [besidesPreR, besidesPre, write])

theorem stepEnd_pre_congr (st : State) (token : Token) (b : Bool)
    (hn : ¬ (token.Data = "code" ∨ token.Data = "tt" ∨ token.Data = "kbd")) :
    besidesPreR (stepEnd { st with insidePre := b } token)
      = besidesPreR (stepEnd st token) := by
  unfold stepEnd
  split <;> first
    | (simp [besidesPreR, besidesPre, write]; done)
    | (split <;> simp_all [besidesPreR, besidesPre, write])

/-- Only `code`, `tt` and `kbd` read the `pre` flag: for every other token the
step does the same to all other variables whatever the flag is. -/
theorem step_pre_congr (env : Env) (st : State) (n : Node) (b : Bool)
    (hn : isCodeTag n = false) :
    besidesPreR (step env { st with insidePre := b } n) = besidesPreR (step env st n) := by
  unfold step
  split
  · unfold stepSelfClosing
    split <;> first
      | (simp [besidesPreR, besidesPre, write, writeMedia]; done)
      | (split <;> simp [besidesPreR, besidesPre, write])
  · rename_i hty
    apply stepStart_pre_congr
    simpa [isCodeTag, hty, and_assoc] using hn
  · rename_i hty
    apply stepEnd_pre_congr
    simpa [isCodeTag, hty, and_assoc] using hn
  · simp [besidesPreR, besidesPre, write]
  · simp [besidesPreR, besidesPre]

/-! ## Claims -/

/-- C1 (refuted on the code): an end tag `ul` or `ol` met while no list is open
is not a no-op: the slice expression `listValue[:len(listValue)-1]` panics, so
`Nodes.orgFormat` returns no string on these inputs. -/
theorem C1_unmatched_list_end_panics (env : Env) :
    Nodes.orgFormat env [endTag "ul"] = .error .sliceBoundsOutOfRange ∧
    Nodes.orgFormat env [endTag "ol"] = .error .sliceBoundsOutOfRange ∧
    Nodes.orgFormat env [startTag "ul", endTag "ul", endTag "ul"]
      = .error .sliceBoundsOutOfRange := by
  refine ⟨rfl, rfl, rfl⟩

/-- C2: when every prefix of the token sequence holds at least as many start
tags `ol`/`ul` as end tags `ol`/`ul`, `Nodes.orgFormat` returns a string, and
after every prefix the loop is in a state with `list = len(listValue)`, so the
slice truncation and the index `listValue[list-1]` stay in range. -/
theorem C2_balanced_lists_return (env : Env) (ts : Nodes) (h : listBalanced ts) :
    (∃ out, Nodes.orgFormat env ts = .ok out) ∧
    ∀ k, ∃ st, run env init (ts.take k) = .ok st ∧ st.list = st.listValue.length ∧
      (st.listValue.length : Int)
        = (ts.take k).countP isListOpen - (ts.take k).countP isListClose := by
  constructor
  · obtain ⟨st, hst, _, _⟩ :=
      run_lists env ts init rfl (by simpa [init] using neverUnderflows_of_balanced ts h)
    exact ⟨st.value, by simp [Nodes.orgFormat, hst]⟩
  · intro k
    have hk := neverUnderflows_of_balanced _ (listBalanced_take ts h k)
    obtain ⟨st, hst, hinv, hlen⟩ := run_lists env (ts.take k) init rfl (by simpa [init] using hk)
    refine ⟨st, hst, hinv, ?_⟩
    have := depthAfter_counts _ 0 hk
    simp only [init, List.length_nil] at hlen
    omega

/-- C2 at the sequence `ul, li, "a", /li, /ul`. -/
theorem C2_balanced_lists_return_witness :
    listBalanced [startTag "ul", startTag "li", textTok "a", endTag "li", endTag "ul"] ∧
    ∃ out, Nodes.orgFormat emptyEnv
      [startTag "ul", startTag "li", textTok "a", endTag "li", endTag "ul"] = .ok out :=
  ⟨by decide, (C2_balanced_lists_return emptyEnv _ (by decide)).1⟩

/-- C3: for a token sequence with well-nested list tags, `Nodes.orgFormat`
returns a string in which every start tag `li` has appended one item line, so
there are as many item lines as start tags `li`; the `li` that follows
`itemsAtTop 0 mid` earlier items of an `ol` still open and innermost gets the
index `itemsAtTop 0 mid + 1` followed by `.`, whatever lists were opened and
closed in between and whatever the index of an enclosing list is; and
`ol, li, "a", /li, li, "b", /li, /ol` yields `"\n    1.a\n    2.b"`. -/
theorem C3_ordered_list_indices (env : Env) :
    (∀ ts : Nodes, listBalanced ts →
      (∃ out, Nodes.orgFormat env ts = .ok out) ∧
      (itemLines env init ts).length = ts.countP isLi ∧
      ∀ l ∈ itemLines env init ts, IsItemLine l) ∧
    (∀ (pre mid : Nodes) (ol li : Node), listBalanced pre →
      ol.Token.Typ = .StartTagToken → ol.Token.Data = "ol" →
      listBalanced mid → mid.countP isListClose = mid.countP isListOpen →
      isLi li = true →
      ∃ st st1, run env init (pre ++ ol :: mid) = .ok st ∧ step env st li = .ok st1 ∧
        st1.value = st.value ++ "\n" ++ spaces (2 * (st.listValue.length + 1))
          ++ toString ((itemsAtTop 0 mid : Int) + 1) ++ ".") ∧
    Nodes.orgFormat env
      [startTag "ol", startTag "li", textTok "a", endTag "li", startTag "li", textTok "b",
       endTag "li", endTag "ol"] = .ok "\n    1.a\n    2.b" := by
  refine ⟨?_, ?_, rfl⟩
  · intro ts h
    have hnu := neverUnderflows_of_balanced ts h
    obtain ⟨st, hst, _, _⟩ := run_lists env ts init rfl (by simpa [init] using hnu)
    exact ⟨⟨st.value, by simp [Nodes.orgFormat, hst]⟩,
      itemLines_spec env ts init [] stackOk_init (by simpa [init] using hnu)⟩
  · intro pre mid ol li hpre hty hdata hmid hcount hli
    obtain ⟨st0, hst0, hinv0, _⟩ :=
      run_lists env pre init rfl (by simpa [init] using neverUnderflows_of_balanced pre hpre)
    have hopen : isListOpen ol = true := by simp [isListOpen, hty, hdata]
    obtain ⟨v, _, hv, hs⟩ := step_listOpen env st0 ol hopen
    have hv1 : v = 1 := hv.2 hdata
    subst hv1
    have hmidnu := neverUnderflows_of_balanced mid hmid
    obtain ⟨st, ext1, r1, r2, r3, r4⟩ :=
      run_top env mid { st0 with list := st0.list + 1, listValue := st0.listValue ++ [1] }
        st0.listValue 1 [] rfl (by simp [hinv0]) (le_refl _) (by simpa using hmidnu)
    have hdepth := depthAfter_counts mid 0 hmidnu
    have hext : ext1 = [] := by
      apply List.eq_nil_of_length_eq_zero
      simp only [List.length_nil] at r3
      omega
    subst hext
    have hrun : run env init (pre ++ ol :: mid) = .ok st := by
      rw [run_append, hst0]
      simp [run, hs, r1]
    simp only [List.length_nil] at r2
    have hne : (1 : Int) + (itemsAtTop 0 mid : Nat) ≠ 0 := by omega
    have hstep := step_li env st li hli
    rw [stepLi_snoc st st0.listValue _ r2 r4] at hstep
    simp only [hne, if_false] at hstep
    refine ⟨st, _, hrun, hstep, ?_⟩
    simp only [r2, write, List.length_append, List.length_singleton]
    rw [add_comm (1 : Int)]
    simp [String.append_assoc]

/-- C3 at the sequence `ol, li, "a", /li` followed by a start tag `li`. -/
theorem C3_ordered_list_indices_witness :
    listBalanced [] ∧ listBalanced [startTag "li", textTok "a", endTag "li"] ∧
    ∃ st st1,
      run emptyEnv init ([] ++ startTag "ol" :: [startTag "li", textTok "a", endTag "li"])
        = .ok st ∧
      step emptyEnv st (startTag "li") = .ok st1 ∧
      st1.value = st.value ++ "\n" ++ spaces (2 * (st.listValue.length + 1))
        ++ toString ((itemsAtTop 0 [startTag "li", textTok "a", endTag "li"] : Int) + 1)
        ++ "." :=
  ⟨by decide, by decide,
   (C3_ordered_list_indices emptyEnv).2.1 [] [startTag "li", textTok "a", endTag "li"]
     (startTag "ol") (startTag "li") (by decide) rfl rfl (by decide) (by decide) rfl⟩

/-- C4: a start tag `li` processed after a token sequence that leaves `d` lists
open appends a newline, `2*(d+1)` spaces, and then nothing when `d = 0`, `- `
when the innermost open list is unordered, and the current index followed by
`.` when it is ordered; `ul, li, "a", /li, li, "b", /li, /ul` yields
`"\n    - a\n    - b"`. -/
theorem C4_item_indent_and_marker (env : Env) (ts : Nodes) (st : State) (li : Node)
    (hrun : run env init ts = .ok st) (hli : isLi li = true) :
    (∃ st1, step env st li = .ok st1 ∧
      match (openLists [] ts).getLast? with
      | none =>
        st1.value = st.value ++ "\n" ++ spaces (2 * ((openLists [] ts).length + 1))
      | some .unordered =>
        st1.value = st.value ++ "\n" ++ spaces (2 * ((openLists [] ts).length + 1)) ++ "- "
      | some .ordered =>
        ∃ idx : Int, st.listValue.getLast? = some idx ∧ 1 ≤ idx ∧
          st1.value = st.value ++ "\n" ++ spaces (2 * ((openLists [] ts).length + 1))
            ++ toString idx ++ ".") ∧
    Nodes.orgFormat env
      [startTag "ul", startTag "li", textTok "a", endTag "li", startTag "li", textTok "b",
       endTag "li", endTag "ul"] = .ok "\n    - a\n    - b" := by
  refine ⟨?_, rfl⟩
  obtain ⟨h1, h2, h3⟩ := stackOk_run env ts init st [] stackOk_init hrun
  rw [step_li env st li hli]
  rcases List.eq_nil_or_concat st.listValue with hnil | ⟨L, v, hL⟩
  · rw [stepLi_nil st (by simp [h1, hnil])]
    refine ⟨_, rfl, ?_⟩
    rw [← h3, hnil]
    simp [write, String.append_assoc]
  · rw [List.concat_eq_append] at hL
    rw [stepLi_snoc st L v hL h1]
    refine ⟨_, rfl, ?_⟩
    rw [← h3, hL]
    have hv0 : 0 ≤ v := h2 v (by simp [hL])
    by_cases hv : v = 0
    · simp [hv, kindOfEntry, write, String.append_assoc]
    · have : 1 ≤ v := by omega
      simp [hv, kindOfEntry, write, String.append_assoc, this]

/-- C4 at the prefix `ul` followed by a start tag `li`. -/
theorem C4_item_indent_and_marker_witness :
    run emptyEnv init [startTag "ul"] = .ok
        { value := "", header := 0, table := 0, insidePre := false, list := 1,
          listValue := [0], stdout := [] } ∧
    isLi (startTag "li") = true ∧
    ∃ st1, step emptyEnv
        { value := "", header := 0, table := 0, insidePre := false, list := 1,
          listValue := [0], stdout := [] } (startTag "li") = .ok st1 ∧
      st1.value = "" ++ "\n" ++ spaces (2 * (1 + 1)) ++ "- " :=
  ⟨rfl, rfl,
   (C4_item_indent_and_marker emptyEnv [startTag "ul"]
    { value := "", header := 0, table := 0, insidePre := false, list := 1,
      listValue := [0], stdout := [] } (startTag "li") rfl rfl).1⟩

/-- C5: a start tag `a` and an end tag `a` processed while the heading counter
is greater than 0 leave the state as it is; processed while the counter is 0
they append `[[` + href + `][` and `]]`.  So `a href=u, t, /a` yields
`[[u][t]]` and `h1, a href=u, t, /a, /h1` yields `"\n** " ++ t`. -/
theorem C5_anchor_suppressed_in_heading (env : Env) (st : State) (attrs : List Attribute)
    (u t : String) :
    (0 < st.header →
      step env st (startTagA "a" attrs) = .ok st ∧
      step env st (endTagA "a" attrs) = .ok st) ∧
    (st.header = 0 →
      step env st (startTagA "a" attrs)
        = .ok (write st ("[[" ++ getAttr "href" (startTagA "a" attrs).Token ++ "][")) ∧
      step env st (endTagA "a" attrs) = .ok (write st "]]")) ∧
    Nodes.orgFormat env [startTagA "a" [href u], textTok t, endTag "a"]
      = .ok ("[[" ++ u ++ "][" ++ t ++ "]]") ∧
    Nodes.orgFormat env
      [startTag "h1", startTagA "a" [href u], textTok t, endTag "a", endTag "h1"]
      = .ok ("\n** " ++ t) := by
  refine ⟨?_, ?_, ?_, ?_⟩
  · intro h
    have hne : st.header ≠ 0 := by omega
    simp [step, stepStart, stepEnd, startTagA, endTagA, hne]
  · intro h
    simp [step, stepStart, stepEnd, startTagA, endTagA, h]
  · simp [Nodes.orgFormat, run, step, stepStart, stepEnd, startTagA, endTag, textTok, init,
      write, tokenText, getAttr, getAttrLoop, href, String.append_assoc]
  · simp [Nodes.orgFormat, run, step, stepStart, stepEnd, startTagA, startTag, endTag, textTok,
      init, write, tokenText, getAttr, getAttrLoop, href, String.append_assoc]

/-- C5 at a state with heading counter 1 and at the initial state. -/
theorem C5_anchor_suppressed_in_heading_witness :
    (0 : Int) < ({ init with header := 1 } : State).header ∧
    step emptyEnv { init with header := 1 } (startTagA "a" [href "u"])
      = .ok { init with header := 1 } ∧
    init.header = 0 ∧
    step emptyEnv init (endTagA "a" []) = .ok (write init "]]") :=
  ⟨by decide,
   ((C5_anchor_suppressed_in_heading emptyEnv { init with header := 1 } [href "u"] "" "").1
      (by decide)).1,
   rfl,
   ((C5_anchor_suppressed_in_heading emptyEnv init [] "" "").2.1 rfl).2⟩

/-- C6: for a heading level `n` from 1 to 6, a start tag `h<n>` appends a
newline, `n+1` asterisks and one space (and adds one to the heading counter),
the end tag `h<n>` appends nothing, and `h<n>, t, /h<n>` yields the newline,
the `n+1` asterisks, a space and `t`; for `n = 1` and `t = "Title"` this is
`"\n** Title"`. -/
theorem C6_heading_stars (env : Env) (st : State) (attrs : List Attribute) (t : String)
    (n : Nat) (h1 : 1 ≤ n) (h6 : n ≤ 6) :
    step env st (startTagA ("h" ++ toString n) attrs)
      = .ok { write st ("\n" ++ stars (n + 1) ++ " ") with header := st.header + 1 } ∧
    step env st (endTagA ("h" ++ toString n) attrs)
      = .ok { st with header := st.header - 1 } ∧
    Nodes.orgFormat env [startTag ("h" ++ toString n), textTok t, endTag ("h" ++ toString n)]
      = .ok ("\n" ++ stars (n + 1) ++ " " ++ t) ∧
    Nodes.orgFormat env [startTag "h1", textTok "Title", endTag "h1"] = .ok "\n** Title" := by
  refine ⟨?_, ?_, ?_, rfl⟩
  · interval_cases n <;> rfl
  · interval_cases n <;> rfl
  · interval_cases n <;> rfl

/-- C6 at level 3 with the text `"x"`. -/
theorem C6_heading_stars_witness :
    1 ≤ 3 ∧ 3 ≤ 6 ∧
    Nodes.orgFormat emptyEnv
      [startTag ("h" ++ toString 3), textTok "x", endTag ("h" ++ toString 3)]
      = .ok ("\n" ++ stars (3 + 1) ++ " " ++ "x") :=
  ⟨by decide, by decide,
   (C6_heading_stars emptyEnv init [] "x" 3 (by decide) (by decide)).2.2.1⟩

/-- C7: an `en-media` token, self-closing or start tag, appends
`"\n[[./" + filepath.Base(attachmentPath) + "/" + f + "]]"`, where `f` is the
file name the attachment map holds for the value of the `hash` attribute and
`""` when the map has no entry for it; with `hash="abc"`, `abc -> photo.png`
and a directory whose base name is `notes` the output is
`"\n[[./notes/photo.png]]"`, and with an empty map `"\n[[./notes/]]"`. -/
theorem C7_media_link (env : Env) (st : State) (attrs : List Attribute) :
    step env st (selfClosingTag "en-media" attrs)
      = .ok (write st ("\n[[./" ++ filepathBase env.attachmentPath ++ "/"
          ++ (env.attachments.lookup (getAttr "hash" (selfClosingTag "en-media" attrs).Token)).getD ""
          ++ "]]")) ∧
    step env st (startTagA "en-media" attrs)
      = .ok (write st ("\n[[./" ++ filepathBase env.attachmentPath ++ "/"
          ++ (env.attachments.lookup (getAttr "hash" (startTagA "en-media" attrs).Token)).getD ""
          ++ "]]")) ∧
    Nodes.orgFormat { attachmentPath := "out/notes", attachments := [("abc", "photo.png")] }
      [selfClosingTag "en-media" [hashAttr "abc"]] = .ok "\n[[./notes/photo.png]]" ∧
    Nodes.orgFormat { attachmentPath := "out/notes", attachments := [("abc", "photo.png")] }
      [startTagA "en-media" [hashAttr "abc"]] = .ok "\n[[./notes/photo.png]]" ∧
    Nodes.orgFormat { attachmentPath := "out/notes", attachments := [] }
      [selfClosingTag "en-media" [hashAttr "abc"]] = .ok "\n[[./notes/]]" := by
  have e : ("\n[[./" : String) = "\n" ++ "[[./" := by decide
  have hget : ∀ k, mapGet env.attachments k = (env.attachments.lookup k).getD "" := by
    intro k
    unfold mapGet
    cases env.attachments.lookup k <;> rfl
  refine ⟨?_, ?_, by decide, by decide, by decide⟩
  · simp [step, stepSelfClosing, selfClosingTag, writeMedia, write, hget, String.append_assoc]
    rw [e, String.append_assoc]
  · simp [step, stepStart, startTagA, writeMedia, write, hget, String.append_assoc]
    rw [e, String.append_assoc]

/-- C8: a start or end tag `code`, `tt` or `kbd` met after a start tag `pre`
with no end tag `pre` in between leaves the state as it is; met before any
start tag `pre`, or after an end tag `pre` with no start tag `pre` in between,
it appends `~`.  A start tag `pre` appends `"\n#+BEGIN_SRC\n"`, an end tag
`pre` appends `"\n#+END_SRC\n"`, and `pre, code, "x", /code, /pre` yields
`"\n#+BEGIN_SRC\nx\n#+END_SRC\n"`. -/
theorem C8_code_markers_inside_pre (env : Env) :
    (∀ (pre mid : Nodes) (p c : Node) (st : State), isPreOpen p = true →
      (∀ m ∈ mid, isPreClose m = false) → isCodeTag c = true →
      run env init (pre ++ p :: mid) = .ok st → step env st c = .ok st) ∧
    (∀ (ts : Nodes) (c : Node) (st : State), (∀ m ∈ ts, isPreOpen m = false) →
      isCodeTag c = true → run env init ts = .ok st →
      step env st c = .ok (write st "~")) ∧
    (∀ (pre mid : Nodes) (q c : Node) (st : State), isPreClose q = true →
      (∀ m ∈ mid, isPreOpen m = false) → isCodeTag c = true →
      run env init (pre ++ q :: mid) = .ok st → step env st c = .ok (write st "~")) ∧
    (∀ (st : State) (p : Node), isPreOpen p = true →
      step env st p = .ok { write st "\n#+BEGIN_SRC\n" with insidePre := true }) ∧
    (∀ (st : State) (q : Node), isPreClose q = true →
      step env st q = .ok { write st "\n#+END_SRC\n" with insidePre := false }) ∧
    Nodes.orgFormat env
      [startTag "pre", startTag "code", textTok "x", endTag "code", endTag "pre"]
      = .ok "\n#+BEGIN_SRC\nx\n#+END_SRC\n" := by
  refine ⟨?_, ?_, ?_, fun st p h => step_preOpen env st p h,
    fun st q h => step_preClose env st q h, rfl⟩
  · intro pre mid p c st hp hmid hc hrun
    obtain ⟨st0, st1, _, h1, h2⟩ := run_cons_ok env pre p mid st hrun
    rw [step_preOpen env st0 p hp] at h1
    cases h1
    have := run_insidePre_true env mid _ st rfl hmid h2
    rw [step_code env st c hc, this]
    rfl
  · intro ts c st hts hc hrun
    have := run_insidePre_false env ts init st rfl hts hrun
    rw [step_code env st c hc, this]
    rfl
  · intro pre mid q c st hq hmid hc hrun
    obtain ⟨st0, st1, _, h1, h2⟩ := run_cons_ok env pre q mid st hrun
    rw [step_preClose env st0 q hq] at h1
    cases h1
    have := run_insidePre_false env mid _ st rfl hmid h2
    rw [step_code env st c hc, this]
    rfl

/-- C8 at `pre, "x"` followed by a start tag `code`, and at a start tag `code`
in the initial state. -/
theorem C8_code_markers_inside_pre_witness :
    isPreOpen (startTag "pre") = true ∧ isCodeTag (startTag "code") = true ∧
    run emptyEnv init ([] ++ startTag "pre" :: [textTok "x"]) = .ok
      { value := "\n#+BEGIN_SRC\nx", header := 0, table := 0, insidePre := true, list := 0,
        listValue := [], stdout := [] } ∧
    step emptyEnv
      { value := "\n#+BEGIN_SRC\nx", header := 0, table := 0, insidePre := true, list := 0,
        listValue := [], stdout := [] } (startTag "code") = .ok
      { value := "\n#+BEGIN_SRC\nx", header := 0, table := 0, insidePre := true, list := 0,
        listValue := [], stdout := [] } ∧
    step emptyEnv init (startTag "code") = .ok (write init "~") :=
  ⟨by decide, by decide, by decide,
   (C8_code_markers_inside_pre emptyEnv).1 [] [textTok "x"] (startTag "pre") (startTag "code")
     _ (by decide) (by decide) (by decide) (by decide),
   (C8_code_markers_inside_pre emptyEnv).2.1 [] (startTag "code") init (by decide)
     (by decide) rfl⟩

/-- C9 (refuted as stated): inside a `pre` region the emphasis tags still
append their symbols: `pre, b, "x", /b, /pre` yields
`"\n#+BEGIN_SRC\n*x*\n#+END_SRC\n"`, and `u`, `i`, `del` inside `pre` append
`_`, `/` and `+`. -/
theorem C9_emphasis_inside_pre_counterexample :
    Nodes.orgFormat emptyEnv
      [startTag "pre", startTag "b", textTok "x", endTag "b", endTag "pre"]
      = .ok "\n#+BEGIN_SRC\n*x*\n#+END_SRC\n" ∧
    Nodes.orgFormat emptyEnv
      [startTag "pre", startTag "u", startTag "i", startTag "del", textTok "x",
       endTag "del", endTag "i", endTag "u", endTag "pre"]
      = .ok "\n#+BEGIN_SRC\n_/+x+/_\n#+END_SRC\n" := by
  decide

/-- C9 (amended): a start or end tag `u`, `i`, `b`, `strong`, `em` or `del`
appends its emphasis symbol (`_`, `/`, `*`, `*`, `*`, `+`) in every state,
inside a `pre` region as well as outside.  Inside a `pre` region only the `~`
of `code`, `tt` and `kbd` is suppressed: such a tag appends `~` exactly when
the `pre` flag is off, and for every other token the step does the same to
`value` and to every variable but the flag whether the flag is on or off. -/
theorem C9_emphasis_regardless_of_pre (env : Env) (st : State) (attrs : List Attribute)
    (name sym : String) (h : (name, sym) ∈ emphasisTable) :
    (step env st (startTagA name attrs) = .ok (write st sym) ∧
      step env st (endTagA name attrs) = .ok (write st sym)) ∧
    (∀ (n : Node) (b : Bool), isCodeTag n = false →
      besidesPreR (step env { st with insidePre := b } n) = besidesPreR (step env st n)) ∧
    (∀ c : Node, isCodeTag c = true →
      step env st c = .ok (if st.insidePre then st else write st "~")) := by
  refine ⟨?_, fun n b hn => step_pre_congr env st n b hn, fun c hc => step_code env st c hc⟩
  simp only [emphasisTable, List.mem_cons, Prod.mk.injEq, List.mem_singleton,
    List.not_mem_nil, or_false] at h
  rcases h with ⟨rfl, rfl⟩ | ⟨rfl, rfl⟩ | ⟨rfl, rfl⟩ | ⟨rfl, rfl⟩ | ⟨rfl, rfl⟩ | ⟨rfl, rfl⟩ <;>
    exact ⟨rfl, rfl⟩

/-- C9 (amended) at a start tag `b` and a start tag `p` in a state inside a
`pre` region. -/
theorem C9_emphasis_regardless_of_pre_witness :
    ("b", "*") ∈ emphasisTable ∧
    step emptyEnv { init with insidePre := true } (startTagA "b" [])
      = .ok (write { init with insidePre := true } "*") ∧
    isCodeTag (startTag "p") = false ∧
    besidesPreR (step emptyEnv { init with insidePre := true } (startTag "p"))
      = besidesPreR (step emptyEnv init (startTag "p")) :=
  ⟨by decide,
   (C9_emphasis_regardless_of_pre emptyEnv { init with insidePre := true } [] "b" "*"
      (by decide)).1.1,
   by decide,
   (C9_emphasis_regardless_of_pre emptyEnv init [] "b" "*" (by decide)).2.1
     (startTag "p") true (by decide)⟩

/-- C10: dropping an ignored token from a token sequence does not change what
`Nodes.orgFormat` returns, be it a string or a panic: for a start tag of the
ignore set, a start tag with an unrecognized name, a start or end tag `table`,
an end tag no case handles, or a self-closing tag other than `en-media`,
`en-todo`, `br`, `hr`, `orgFormat (xs ++ [t] ++ ys) = orgFormat (xs ++ ys)`. -/
theorem C10_ignored_tokens_drop_out (env : Env) (xs ys : Nodes) (t : Node)
    (h : isIgnored t = true) :
    Nodes.orgFormat env (xs ++ [t] ++ ys) = Nodes.orgFormat env (xs ++ ys) := by
  apply orgFormat_eq_of_coreR
  rw [List.append_assoc, run_append, run_append]
  cases run env init xs with
  | error e => rfl
  | ok st =>
    obtain ⟨tb, o, hs⟩ := step_ignored env st t h
    simp only [List.singleton_append, run, hs]
    exact run_congr env ys st tb o

/-- C10 at a start tag `table` between a heading and a paragraph. -/
theorem C10_ignored_tokens_drop_out_witness :
    isIgnored (startTag "table") = true ∧
    Nodes.orgFormat emptyEnv ([startTag "h1"] ++ [startTag "table"] ++ [startTag "p"])
      = Nodes.orgFormat emptyEnv ([startTag "h1"] ++ [startTag "p"]) :=
  ⟨by decide,
   C10_ignored_tokens_drop_out emptyEnv [startTag "h1"] [startTag "p"] (startTag "table")
     (by decide)⟩

/-- C11: `sanitize` returns the lowercased, trimmed title with the characters
`- ' ( ) , : | ? . / "` deleted and every remaining space replaced by a
hyphen.  So the result holds no space and none of `' ( ) , : | ? . / "`; the
kept characters hold no hyphen, and the result has a hyphen at a position
exactly where the kept characters have a space. -/
theorem C11_sanitize_refines (lib : GoLib) (title : String) :
    sanitize lib title = sanitizeSpec lib title ∧
    (∀ c ∈ (sanitize lib title).data,
      c ≠ ' ' ∧ c ∉ [apostrophe, '(', ')', ',', ':', '|', '?', '.', '/', doubleQuote]) ∧
    '-' ∉ keptChars lib title ∧
    (∀ i : Nat, (sanitize lib title).data[i]? = some '-' ↔
      (keptChars lib title)[i]? = some ' ') ∧
    sanitize exampleLib "  My Note: a-b (v1.0) / \"x\"  " = "my-note-ab-v10--x" := by
  refine ⟨sanitize_eq_spec lib title, ?_, ?_, ?_, by decide⟩
  · intro c hc
    rw [sanitize_eq_spec] at hc
    simp only [sanitizeSpec, List.mem_map] at hc
    obtain ⟨x, hx, rfl⟩ := hc
    have hdel := mem_keptChars lib title x hx
    by_cases hsp : x = ' '
    · subst hsp
      simp only [if_true]
      decide
    · simp only [hsp, if_false]
      refine ⟨hsp, ?_⟩
      intro hmem
      exact hdel (List.mem_cons_of_mem _ hmem)
  · intro h
    exact mem_keptChars lib title '-' h (by decide)
  · intro i
    rw [sanitize_eq_spec]
    simp only [sanitizeSpec, List.getElem?_map]
    cases hget : (keptChars lib title)[i]? with
    | none => simp
    | some x =>
      have hx : x ∈ keptChars lib title := List.getElem?_mem hget
      have hne : x ≠ '-' := fun h => mem_keptChars lib title x hx (h ▸ by decide)
      by_cases hsp : x = ' '
      · simp [hsp]
      · simp [hsp, hne]

/-- C11 at the title `"a b"`, whose result `"a-b"` holds a hyphen. -/
theorem C11_sanitize_refines_witness :
    '-' ∈ (sanitize exampleLib "a b").data ∧
    ('-' ≠ ' ' ∧
      '-' ∉ [apostrophe, '(', ')', ',', ':', '|', '?', '.', '/', doubleQuote]) :=
  ⟨by decide, (C11_sanitize_refines exampleLib "a b").2.1 '-' (by decide)⟩

/-- C12: for a note with an empty `Created` field and a latitude that is not
greater than 0, `Note.orgProperties` returns the title line and the line
`#+STARTUP: showall`, followed in this order by the `#+AUTHOR:` line iff the
author is not empty, the `#+TAGS:` line (tags joined by single spaces) iff
there is a tag, the `#+SOURCE:` line iff the source is not empty, the
`#+DESCRIPTION:` line iff the source URL is not empty, and the
`#+EVERNOTE_URL:` line iff the identifier is not empty; no date and no
latitude or longitude line is written. -/
theorem C12_properties_without_date (lib : GoLib) (note : Note)
    (hcreated : note.Created = "") (hlat : note.Attributes.Latitude.gtZero = false) :
    note.orgProperties lib = .ok
      ("#+TITLE: " ++ note.Title ++ "\n#+STARTUP: showall\n"
        ++ (if note.Attributes.Author ≠ "" then "#+AUTHOR: " ++ note.Attributes.Author ++ "\n"
            else "")
        ++ (if note.Tags ≠ [] then "#+TAGS: " ++ String.intercalate " " note.Tags ++ "\n"
            else "")
        ++ (if note.Attributes.Source ≠ "" then "#+SOURCE: " ++ note.Attributes.Source ++ "\n"
            else "")
        ++ (if note.Attributes.SourceUrl ≠ "" then
              "#+DESCRIPTION: " ++ note.Attributes.SourceUrl ++ "\n"
            else "")
        ++ (if note.Guid ≠ "" then
              "#+EVERNOTE_URL: https://evernote.com/Home.action#n=" ++ note.Guid
                ++ "&s=s1&ses=4&sh=2\n"
            else "")) := by
  have e : ("\n#+STARTUP: showall\n" : String) = "\n" ++ ("#+STARTUP: showall" ++ "\n") := by
    decide
  have htags : (note.Tags.length > 0) ↔ note.Tags ≠ [] := by
    cases note.Tags <;> simp
  unfold Note.orgProperties
  rw [e]
  simp only [hcreated, hlat, ne_eq, not_true_eq_false, if_false, htags, Bool.false_eq_true]
  by_cases h1 : note.Attributes.Author = "" <;> by_cases h2 : note.Tags = [] <;>
    by_cases h3 : note.Attributes.Source = "" <;>
    by_cases h4 : note.Attributes.SourceUrl = "" <;> by_cases h5 : note.Guid = "" <;>
    simp only [h1, h2, h3, h4, h5, not_true_eq_false, not_false_eq_true, if_true, if_false,
      String.append_assoc, String.append_empty]

/-- C12 at a note with a title, one author and two tags. -/
theorem C12_properties_without_date_witness :
    ({ Guid := "", Title := "T", Content := "", Created := "", Tags := ["a", "b"],
       Attributes := { Author := "me", Latitude := { bits := 0 }, Longitude := { bits := 0 },
                       Source := "", SourceUrl := "" },
       Resources := [] } : Note).orgProperties exampleLib
      = .ok "#+TITLE: T\n#+STARTUP: showall\n#+AUTHOR: me\n#+TAGS: a b\n" :=
  C12_properties_without_date exampleLib
    { Guid := "", Title := "T", Content := "", Created := "", Tags := ["a", "b"],
      Attributes := { Author := "me", Latitude := { bits := 0 }, Longitude := { bits := 0 },
                      Source := "", SourceUrl := "" },
      Resources := [] } rfl rfl

/-- C13 (refuted as stated): `9223372036854775808` is a valid base-10 integer,
yet a note created at that time makes `Note.orgProperties` fail, because
`strconv.ParseInt(…, 10, 64)` reports a range error. -/
theorem C13_out_of_range_created_counterexample :
    (noteCreated "9223372036854775808").Created ≠ "" ∧
    isBase10Integer (noteCreated "9223372036854775808").Created = true ∧
    (noteCreated "9223372036854775808").orgProperties exampleLib = .error .ErrRange := by
  decide

/-- C13 (amended): `Note.orgProperties` fails if and only if the `Created`
field is not empty and is not a base-10 integer of the signed 64-bit range (an
optional sign and one or more decimal digits, with a value from `-2^63` to
`2^63 - 1`).  With an empty `Created` it returns the lines before and after
the date with no date line between them; with a `Created` in range it returns
them with the date line of `Created / 1000` seconds between them. -/
theorem C13_fails_iff_created_unparsable (lib : GoLib) (note : Note) :
    ((∃ err, note.orgProperties lib = .error err) ↔
      note.Created ≠ "" ∧
        ¬ (isBase10Integer note.Created = true ∧
            inInt64 (base10Value note.Created) = true)) ∧
    (note.Created = "" →
      note.orgProperties lib
        = .ok (propertiesBeforeDate note ++ propertiesAfterDate lib note)) ∧
    (note.Created ≠ "" → isBase10Integer note.Created = true →
      inInt64 (base10Value note.Created) = true →
      note.orgProperties lib
        = .ok (propertiesBeforeDate note ++ "#+DATE: "
            ++ lib.unixString ((base10Value note.Created).tdiv 1000) ++ "\n"
            ++ propertiesAfterDate lib note)) := by
  rw [orgProperties_eq]
  refine ⟨?_, ?_, ?_⟩
  · by_cases h0 : note.Created = ""
    · simp [h0]
    · simp only [h0, if_false, ne_eq, not_false_eq_true, true_and]
      cases hp : parseInt note.Created with
      | error err =>
        simp only [Except.error.injEq, exists_eq', true_iff]
        rintro ⟨hb, hin⟩
        have := (parseInt_ok note.Created _).mpr ⟨hb, hin, rfl⟩
        rw [hp] at this
        cases this
      | ok c =>
        obtain ⟨hb, hin, _⟩ := (parseInt_ok note.Created c).mp hp
        simp [hb, hin]
  · intro h0
    simp [h0]
  · intro h0 hb hin
    have := (parseInt_ok note.Created _).mpr ⟨hb, hin, rfl⟩
    simp only [h0, if_false, this]

/-- C13 (amended) at the creation times `""`, `"1500000000000"` and `"12x"`. -/
theorem C13_fails_iff_created_unparsable_witness :
    (noteCreated "").orgProperties exampleLib = .ok "#+TITLE: \n#+STARTUP: showall\n" ∧
    (noteCreated "1500000000000").orgProperties exampleLib
      = .ok "#+TITLE: \n#+STARTUP: showall\n#+DATE: 1500000000\n" ∧
    ∃ err, (noteCreated "12x").orgProperties exampleLib = .error err :=
  ⟨(C13_fails_iff_created_unparsable exampleLib (noteCreated "")).2.1 rfl,
   (C13_fails_iff_created_unparsable exampleLib (noteCreated "1500000000000")).2.2
     (by decide) (by decide) (by decide),
   (C13_fails_iff_created_unparsable exampleLib (noteCreated "12x")).1.mpr
     ⟨by decide, by decide⟩⟩

/-- C14: after the attachment map is filled from a resource list, the hash of
a resource that is the last one in the list with that hash maps to its file
name, or to the hash itself when the file name is empty; so the hash of every
resource of the list maps to the name chosen for the last resource with that
hash; and a hash that no resource of the list carries maps to what it mapped
to before. -/
theorem C14_attachments_recorded (m : List (String × String)) (rs : List Resource) :
    (∀ (pre post : List Resource) (r : Resource), rs = pre ++ r :: post →
      (∀ x ∈ post, x.Data.Hash ≠ r.Data.Hash) →
      (recordAttachments m rs).lookup r.Data.Hash
          = some (if r.ResourceAttributes.FileName = "" then r.Data.Hash
                  else r.ResourceAttributes.FileName) ∧
        mapGet (recordAttachments m rs) r.Data.Hash
          = (if r.ResourceAttributes.FileName = "" then r.Data.Hash
             else r.ResourceAttributes.FileName)) ∧
    (∀ r0 ∈ rs, ∃ (pre post : List Resource) (r : Resource), rs = pre ++ r :: post ∧
      r.Data.Hash = r0.Data.Hash ∧ (∀ x ∈ post, x.Data.Hash ≠ r0.Data.Hash) ∧
      mapGet (recordAttachments m rs) r0.Data.Hash
        = (if r.ResourceAttributes.FileName = "" then r.Data.Hash
           else r.ResourceAttributes.FileName)) ∧
    (∀ h : String, (∀ r ∈ rs, r.Data.Hash ≠ h) →
      (recordAttachments m rs).lookup h = m.lookup h ∧
        mapGet (recordAttachments m rs) h = mapGet m h) := by
  have key : ∀ (pre post : List Resource) (r : Resource), rs = pre ++ r :: post →
      (∀ x ∈ post, x.Data.Hash ≠ r.Data.Hash) →
      (recordAttachments m rs).lookup r.Data.Hash
        = some (if r.ResourceAttributes.FileName = "" then r.Data.Hash
                else r.ResourceAttributes.FileName) := by
    intro pre post r hrs hlast
    rw [hrs, recordAttachments_append]
    simp only [recordAttachments]
    rw [recordAttachments_other post _ _ hlast, lookup_mapSet]
    simp
  refine ⟨?_, ?_, ?_⟩
  · intro pre post r hrs hlast
    exact ⟨key pre post r hrs hlast, by simp only [mapGet, key pre post r hrs hlast]⟩
  · intro r0 hr0
    obtain ⟨pre, post, r, hrs, hr, hpost⟩ := last_with_hash rs r0.Data.Hash ⟨r0, hr0, rfl⟩
    refine ⟨pre, post, r, hrs, hr, hpost, ?_⟩
    have := key pre post r hrs (by rw [hr]; exact hpost)
    rw [← hr]
    simp only [mapGet, this]
  · intro h hne
    have hl := recordAttachments_other rs h m hne
    exact ⟨hl, by simp only [mapGet, hl]⟩

/-- C14 at two resources with the same hash and one without a file name. -/
theorem C14_attachments_recorded_witness :
    mapGet (recordAttachments [("old", "kept.txt")]
      [{ Mime := "", Data := { Content := "", Hash := "h1", Encoding := "" },
         ResourceAttributes := { FileName := "a.png" } },
       { Mime := "", Data := { Content := "", Hash := "h2", Encoding := "" },
         ResourceAttributes := { FileName := "" } },
       { Mime := "", Data := { Content := "", Hash := "h1", Encoding := "" },
         ResourceAttributes := { FileName := "b.png" } }]) "h1" = "b.png" ∧
    mapGet (recordAttachments [("old", "kept.txt")]
      [{ Mime := "", Data := { Content := "", Hash := "h2", Encoding := "" },
         ResourceAttributes := { FileName := "" } }]) "h2" = "h2" ∧
    mapGet (recordAttachments [("old", "kept.txt")]
      [{ Mime := "", Data := { Content := "", Hash := "h2", Encoding := "" },
         ResourceAttributes := { FileName := "" } }]) "old" = "kept.txt" :=
  ⟨((C14_attachments_recorded [("old", "kept.txt")] _).1
      [{ Mime := "", Data := { Content := "", Hash := "h1", Encoding := "" },
         ResourceAttributes := { FileName := "a.png" } },
       { Mime := "", Data := { Content := "", Hash := "h2", Encoding := "" },
         ResourceAttributes := { FileName := "" } }] []
      { Mime := "", Data := { Content := "", Hash := "h1", Encoding := "" },
        ResourceAttributes := { FileName := "b.png" } } rfl (by decide)).2,
   ((C14_attachments_recorded [("old", "kept.txt")] _).1 [] []
      { Mime := "", Data := { Content := "", Hash := "h2", Encoding := "" },
        ResourceAttributes := { FileName := "" } } rfl (by decide)).2,
   ((C14_attachments_recorded [("old", "kept.txt")]
      [{ Mime := "", Data := { Content := "", Hash := "h2", Encoding := "" },
         ResourceAttributes := { FileName := "" } }]).2.2 "old" (by decide)).2⟩

/-- C15: a self-closing `en-todo` token appends `"\n- [X] "` when the value of
its `checked` attribute is exactly `true`, `"\n- [ ] "` when it is exactly
`false`, and nothing otherwise, as with `True` or with no such attribute. -/
theorem C15_todo_checkbox (env : Env) (st : State) (attrs : List Attribute) :
    step env st (selfClosingTag "en-todo" attrs) = .ok
      (if getAttr "checked" (selfClosingTag "en-todo" attrs).Token = "true" then
         write st "\n- [X] "
       else if getAttr "checked" (selfClosingTag "en-todo" attrs).Token = "false" then
         write st "\n- [ ] "
       else st) ∧
    Nodes.orgFormat env [selfClosingTag "en-todo" [checkedAttr "true"]] = .ok "\n- [X] " ∧
    Nodes.orgFormat env [selfClosingTag "en-todo" [checkedAttr "false"]] = .ok "\n- [ ] " ∧
    Nodes.orgFormat env [selfClosingTag "en-todo" [checkedAttr "True"]] = .ok "" ∧
    Nodes.orgFormat env [selfClosingTag "en-todo" []] = .ok "" := by
  refine ⟨?_, rfl, rfl, rfl, rfl⟩
  simp only [step, stepSelfClosing, selfClosingTag]
  split
  · rename_i h
    simp [h]
  · rename_i h
    simp [h]
  · rename_i h1 h2
    rw [if_neg h1, if_neg h2]

/-- C16: `getAttr` returns the value of the first attribute of the token
whose key is the given one, also when the key occurs again later, and the
empty string when no attribute has that key. -/
theorem C16_getAttr_first_match (key : String) (token : Token) :
    (getAttr key token =
      match token.Attr.find? (fun a => decide (a.Key = key)) with
      | some a => a.Val
      | none => "") ∧
    (∀ (pre post : List Attribute) (a : Attribute), token.Attr = pre ++ a :: post →
      a.Key = key → (∀ b ∈ pre, b.Key ≠ key) → getAttr key token = a.Val) ∧
    ((∀ a ∈ token.Attr, a.Key ≠ key) → getAttr key token = "") ∧
    getAttr "k" (startTagA "a" [mkAttr "j" "0", mkAttr "k" "1", mkAttr "k" "2"]).Token
      = "1" := by
  refine ⟨getAttrLoop_find key token.Attr, ?_, ?_, rfl⟩
  · intro pre post a hattr ha hpre
    unfold getAttr
    rw [hattr]
    exact getAttrLoop_first key pre a post ha hpre
  · intro h
    exact getAttrLoop_none key token.Attr h

/-- C16 at a token with the key `k` twice and at a token without it. -/
theorem C16_getAttr_first_match_witness :
    getAttr "k" (startTagA "a" ([mkAttr "j" "0"] ++ mkAttr "k" "1" :: [mkAttr "k" "2"])).Token
      = "1" ∧
    getAttr "k" (startTagA "a" [mkAttr "j" "0"]).Token = "" :=
  ⟨(C16_getAttr_first_match "k"
      (startTagA "a" ([mkAttr "j" "0"] ++ mkAttr "k" "1" :: [mkAttr "k" "2"])).Token).2.1
      [mkAttr "j" "0"] [mkAttr "k" "2"] (mkAttr "k" "1") rfl rfl (by decide),
   (C16_getAttr_first_match "k" (startTagA "a" [mkAttr "j" "0"]).Token).2.2.1 (by decide)⟩

/-- C17: while no end tag `ol`/`ul` meets an empty stack, after every prefix
of the token sequence `list` equals `len(listValue)`, both equal the number of
start tags `ol`/`ul` minus the number of end tags `ol`/`ul` of the prefix, and
the entries of `listValue` fit the open lists of the prefix one by one: `0`
for a list opened by `ul`, at least `1` for a list opened by `ol`. -/
theorem C17_list_stack_invariant (env : Env) (ts : Nodes) (h : listBalanced ts) :
    ∀ k, ∃ st, run env init (ts.take k) = .ok st ∧ st.list = st.listValue.length ∧
      (st.listValue.length : Int)
        = (ts.take k).countP isListOpen - (ts.take k).countP isListClose ∧
      List.Forall₂ entryFits st.listValue (openLists [] (ts.take k)) := by
  intro k
  have hk := neverUnderflows_of_balanced _ (listBalanced_take ts h k)
  obtain ⟨st, hst, hinv, hlen⟩ := run_lists env (ts.take k) init rfl (by simpa [init] using hk)
  obtain ⟨_, hnn, hkinds⟩ := stackOk_run env (ts.take k) init st [] stackOk_init hst
  refine ⟨st, hst, hinv, ?_, ?_⟩
  · have := depthAfter_counts _ 0 hk
    simp only [init, List.length_nil] at hlen
    omega
  · rw [← hkinds]
    exact entryFits_of_nonneg st.listValue hnn

/-- C17 at the sequence `ol, li, ul`, whose stack is `[2, 0]`. -/
theorem C17_list_stack_invariant_witness :
    listBalanced [startTag "ol", startTag "li", startTag "ul"] ∧
    ∃ st, run emptyEnv init ([startTag "ol", startTag "li", startTag "ul"].take 3) = .ok st ∧
      st.list = st.listValue.length ∧
      (st.listValue.length : Int)
        = ([startTag "ol", startTag "li", startTag "ul"].take 3).countP isListOpen
          - ([startTag "ol", startTag "li", startTag "ul"].take 3).countP isListClose ∧
      List.Forall₂ entryFits st.listValue
        (openLists [] ([startTag "ol", startTag "li", startTag "ul"].take 3)) :=
  ⟨by decide,
   C17_list_stack_invariant emptyEnv [startTag "ol", startTag "li", startTag "ul"]
     (by decide) 3⟩

/-- C18 (refuted on the code): the heading counter does not saturate.  An end
tag `h1` to `h6` subtracts one in every state, also at 0, so after any token
sequence the counter is the number of heading start tags minus the number of
heading end tags; the anchor cases write their brackets exactly when the
counter is 0.  So after an unmatched end tag `h1` the counter is `-1` and
`/h1, a href=u, t, /a` yields `t` without brackets, while
`/h2, h3, a href=u, t, /a, /h3` yields a link inside the heading. -/
theorem C18_heading_counter_goes_negative (env : Env) (st : State)
    (attrs : List Attribute) (u t : String) :
    step env st (endTagA "h1" attrs) = .ok { st with header := st.header - 1 } ∧
    step env st (endTagA "h2" attrs) = .ok { st with header := st.header - 1 } ∧
    step env st (endTagA "h3" attrs) = .ok { st with header := st.header - 1 } ∧
    step env st (endTagA "h4" attrs) = .ok { st with header := st.header - 1 } ∧
    step env st (endTagA "h5" attrs) = .ok { st with header := st.header - 1 } ∧
    step env st (endTagA "h6" attrs) = .ok { st with header := st.header - 1 } ∧
    step env st (startTagA "a" attrs)
      = .ok (if st.header = 0 then
               write st ("[[" ++ getAttr "href" (startTagA "a" attrs).Token ++ "][")
             else st) ∧
    step env st (endTagA "a" attrs) = .ok (if st.header = 0 then write st "]]" else st) ∧
    (∀ ts : Nodes,
      match run env init ts with
      | .ok s => s.header = (ts.countP isHeadingOpen : Int) - ts.countP isHeadingClose
      | .error _ => True) ∧
    step env init (endTag "h1") = .ok { init with header := -1 } ∧
    Nodes.orgFormat env [endTag "h1", startTagA "a" [href u], textTok t, endTag "a"]
      = .ok t ∧
    Nodes.orgFormat env
      [endTag "h2", startTag "h3", startTagA "a" [href u], textTok t, endTag "a", endTag "h3"]
      = .ok ("\n**** [[" ++ u ++ "][" ++ t ++ "]]") := by
  refine ⟨rfl, rfl, rfl, rfl, rfl, rfl, ?_, ?_, ?_, rfl, ?_, ?_⟩
  · by_cases h : st.header = 0 <;> simp [step, stepStart, startTagA, h]
  · by_cases h : st.header = 0 <;> simp [step, stepEnd, endTagA, h]
  · intro ts
    cases hrun : run env init ts with
    | error e => trivial
    | ok s =>
      have := run_header env ts init s hrun
      simp only [init] at this
      simp only
      omega
  · simp [Nodes.orgFormat, run, step, stepStart, stepEnd, startTagA, endTag, textTok, init,
      write, tokenText]
  · have e : ("\n**** [[" : String) = "\n**** " ++ "[[" := by decide
    simp [Nodes.orgFormat, run, step, stepStart, stepEnd, startTagA, startTag, endTag, textTok,
      init, write, tokenText, getAttr, getAttrLoop, href, String.append_assoc]
    rw [e, String.append_assoc]

/-- C19: the row `tr`, then `td, c, /td` for each cell text `c`, then `/tr`
is translated to a pipe before every cell, a closing pipe and a newline,
`"|c1|...|cn|\n"` (and `"|\n"` without cells), alone as well as between a
start tag and an end tag `table`. -/
theorem C19_table_row (env : Env) (cells : List String) :
    Nodes.orgFormat env (rowTokens cells) = .ok (cellsText cells ++ "|\n") ∧
    Nodes.orgFormat env (startTag "table" :: rowTokens cells ++ [endTag "table"])
      = .ok (cellsText cells ++ "|\n") ∧
    cellsText [] ++ "|\n" = "|\n" ∧
    cellsText ["a", "b", "c"] ++ "|\n" = "|a|b|c|\n" := by
  refine ⟨?_, ?_, by decide, by decide⟩
  · simp [Nodes.orgFormat, run_row, write, init]
  · have h0 : run env init [startTag "table"] = .ok { init with table := 1 } := rfl
    have h3 : run env (write { init with table := 1 } (cellsText cells ++ "|\n"))
        [endTag "table"]
        = .ok { write { init with table := 1 } (cellsText cells ++ "|\n") with
                table := 0 } := rfl
    have hsplit : startTag "table" :: rowTokens cells ++ [endTag "table"]
        = [startTag "table"] ++ (rowTokens cells ++ [endTag "table"]) := rfl
    unfold Nodes.orgFormat
    rw [hsplit, run_append, h0]
    simp only
    rw [run_append, run_row]
    simp only
    rw [h3]
    simp [write, init]

/-- C20 (refuted as stated): the two forms also agree for `en-note`, which is
neither `hr` nor `en-media`: a start tag and a self-closing tag `en-note` both
leave the state as it is and both yield the empty string. -/
theorem C20_en_note_forms_agree_counterexample :
    step emptyEnv init (startTag "en-note") = step emptyEnv init (selfClosingTag "en-note" []) ∧
    Nodes.orgFormat emptyEnv [startTag "en-note"] = .ok "" ∧
    Nodes.orgFormat emptyEnv [selfClosingTag "en-note" []] = .ok "" := by
  decide

/-- C20 (amended): the start-tag form and the self-closing form do the same
for `hr`, `en-media` and `en-note`.  A start tag `br` appends nothing while a
self-closing `br` appends a newline; a start tag `en-todo` appends nothing
(it is only reported as skipped) while a self-closing `en-todo` with
`checked="true"` appends `"\n- [X] "`.  Whenever the self-closing form of a
tag appends text and the start-tag form leaves the same `value`, the tag is
`hr` or `en-media`. -/
theorem C20_start_and_self_closing_forms (env : Env) (st : State)
    (attrs : List Attribute) :
    step env st (startTagA "hr" attrs) = step env st (selfClosingTag "hr" attrs) ∧
    step env st (startTagA "en-media" attrs) = step env st (selfClosingTag "en-media" attrs) ∧
    step env st (startTagA "en-note" attrs) = step env st (selfClosingTag "en-note" attrs) ∧
    step env st (startTagA "br" attrs) = .ok st ∧
    step env st (selfClosingTag "br" attrs) = .ok (write st "\n") ∧
    step env st (startTagA "en-todo" attrs)
      = .ok { st with stdout := st.stdout ++ ["skip token: en-todo\n"] } ∧
    step env st (selfClosingTag "en-todo" [checkedAttr "true"]) = .ok (write st "\n- [X] ") ∧
    Nodes.orgFormat env [startTagA "br" attrs] = .ok "" ∧
    Nodes.orgFormat env [selfClosingTag "br" attrs] = .ok "\n" ∧
    (∀ (name : String) (s1 s2 : State),
      step env st (selfClosingTag name attrs) = .ok s1 →
      step env st (startTagA name attrs) = .ok s2 →
      s1.value ≠ st.value → s2.value = s1.value → name = "hr" ∨ name = "en-media") := by
  refine ⟨rfl, rfl, rfl, rfl, rfl, rfl, rfl, rfl, rfl, ?_⟩
  intro name s1 s2 h1 h2 hne heq
  rcases selfClosing_changes env st s1 name attrs h1 hne with rfl | rfl | rfl | rfl
  · exact Or.inr rfl
  · have h2b : step env st (startTagA "en-todo" attrs)
        = .ok { st with stdout := st.stdout ++ ["skip token: en-todo\n"] } := rfl
    rw [h2b] at h2
    cases h2
    exact absurd heq.symm hne
  · have h2b : step env st (startTagA "br" attrs) = .ok st := rfl
    rw [h2b] at h2
    cases h2
    exact absurd heq.symm hne
  · exact Or.inl rfl

/-- C20 (amended) at the tag `hr` in the initial state. -/
theorem C20_start_and_self_closing_forms_witness :
    step emptyEnv init (selfClosingTag "hr" [])
      = .ok (write init "\n------------------------------------\n") ∧
    step emptyEnv init (startTagA "hr" [])
      = .ok (write init "\n------------------------------------\n") ∧
    ("hr" = "hr" ∨ "hr" = "en-media") :=
  ⟨rfl, rfl,
   (C20_start_and_self_closing_forms emptyEnv init []).2.2.2.2.2.2.2.2.2 "hr"
     (write init "\n------------------------------------\n")
     (write init "\n------------------------------------\n") rfl rfl (by decide) rfl⟩

end NixOrg
